import Mathlib

/-
Verification development for the torch-frame core: the TensorFrame
concatenation algebra (`torch_frame/utils/concat.py`) and the per-column
statistics engine (`torch_frame/data/stats.py`).

The Python source is shallowly embedded: pandas/numpy/torch tensors become
Lean lists over exact rationals, Python exceptions become `Except` errors,
and Python dicts become association lists (which preserve insertion order,
as Python dicts do).  Parts of the repository that are referenced by the
embedded files but whose source is not available (the `TensorFrame`
constructor, `MultiNestedTensor.cat`, `split_by_sep`) are modelled from the
specification; each such definition carries a doc comment starting with
`Modelled from the spec:`.
-/

namespace TorchFrame

instance exceptDecEq {ε α : Type} [DecidableEq ε] [DecidableEq α] :
    DecidableEq (Except ε α) := fun x y =>
  match x, y with
  | .ok a, .ok b => decidable_of_iff (a = b) (by simp)
  | .error a, .error b => decidable_of_iff (a = b) (by simp)
  | .ok _, .error _ => isFalse (by simp)
  | .error _, .ok _ => isFalse (by simp)

/-- Association-list lookup, the embedding of Python dict lookup `d[k]` /
`d.get(k)`.  Returns the value of the first entry with the given key. -/
def alookup {α β : Type} [DecidableEq α] (a : α) : List (α × β) → Option β
  | [] => none
  | (k, v) :: t => if a = k then some v else alookup a t

theorem alookup_mem {α β : Type} [DecidableEq α] {l : List (α × β)} {a : α} {b : β}
    (h : alookup a l = some b) : (a, b) ∈ l := by
  induction l with
  | nil => simp [alookup] at h
  | cons p t ih =>
    rcases p with ⟨k, v⟩
    by_cases hpa : a = k
    · subst hpa
      simp [alookup] at h
      simp [h]
    · simp [alookup, hpa] at h
      exact List.mem_cons_of_mem _ (ih h)

theorem alookup_isSome_iff {α β : Type} [DecidableEq α] {l : List (α × β)} {a : α} :
    (alookup a l).isSome ↔ a ∈ l.map Prod.fst := by
  induction l with
  | nil => simp [alookup]
  | cons p t ih =>
    rcases p with ⟨k, v⟩
    by_cases hpa : a = k
    · subst hpa
      simp [alookup]
    · simp [alookup, hpa, ih]

theorem alookup_eq_none_iff {α β : Type} [DecidableEq α] {l : List (α × β)} {a : α} :
    alookup a l = none ↔ a ∉ l.map Prod.fst := by
  rw [← alookup_isSome_iff]
  cases alookup a l <;> simp

/-- Semantic column types (`torch_frame.stype`), a closed enumeration. -/
inductive Stype where
  | numerical
  | categorical
  | multicategorical
  | sequence_numerical
  | timestamp
  | text_embedded
  | embedding
deriving DecidableEq

/-- Physical representation kinds of a semantic type. -/
inductive PhysKind where
  | dense
  | ragged
  | namedRaggedGroup
deriving DecidableEq

/-- Modelled from the spec: the semantic-type registry's `physical_kind`
lookup (the `use_multi_nested_tensor` / `use_dict_multi_nested_tensor`
flags of `torch_frame.stype`, whose module is not part of the embedded
sources).  Ragged storage is used for multi-valued categorical and
variable-length sequence columns; the named-dict-of-ragged representation
is used for multi-embedding columns; everything else is a dense tensor. -/
def Stype.physicalKind : Stype → PhysKind
  | .multicategorical => .ragged
  | .sequence_numerical => .ragged
  | .embedding => .namedRaggedGroup
  | _ => .dense

/-- Dense 2-D tensor, stored as its list of rows. -/
abbrev Dense : Type := List (List ℚ)

/-- Modelled from the spec: a `MultiNestedTensor` (ragged tensor), a
`num_rows` by `num_cols` grid whose cells are variable-length sequences of
values.  The spec describes it as a flat value buffer plus row offsets; the
embedding stores the equivalent per-row, per-column cell slices directly,
which determines the same abstract tensor. -/
structure MultiNestedTensor where
  rows : List (List (List ℚ))
deriving DecidableEq

/-- Errors raised by the concatenation algebra and frame construction. -/
inductive CatError where
  | emptyInput
  | badAlong (along : String)
  | schemaMismatch (expected : List (Stype × List String))
  | targetMismatch
  | rowCountMismatch
  | ambiguousTarget
  | duplicateColumn (st : Stype) (dups : List String)
  | colCountMismatch
  | keyError (name : String)
  | typeError
  | invalidFrame
deriving DecidableEq

/-- Modelled from the spec: `MultiNestedTensor.cat` along the row axis
appends the inputs' rows end-to-end (buffers appended, offsets re-based). -/
def MultiNestedTensor.catRowsList (ts : List MultiNestedTensor) : MultiNestedTensor :=
  ⟨(ts.map MultiNestedTensor.rows).flatten⟩

/-- Modelled from the spec: `MultiNestedTensor.cat` along the column axis
requires all inputs to share the same row count and concatenates the
per-row cell slices in input order. -/
def MultiNestedTensor.catColsList : List MultiNestedTensor → Except CatError MultiNestedTensor
  | [] => .ok ⟨[]⟩
  | [t] => .ok t
  | t :: t' :: ts => do
    let rest ← MultiNestedTensor.catColsList (t' :: ts)
    if t.rows.length = rest.rows.length then
      .ok ⟨List.zipWith (· ++ ·) t.rows rest.rows⟩
    else
      .error .rowCountMismatch

/-- Modelled from the spec: `MultiNestedTensor.cat` dispatching on the
concatenation dimension (0 = rows, 1 = columns). -/
def MultiNestedTensor.cat (ts : List MultiNestedTensor) (dim : ℕ) :
    Except CatError MultiNestedTensor :=
  if dim = 0 then .ok (MultiNestedTensor.catRowsList ts) else MultiNestedTensor.catColsList ts

/-- Number of columns of a dense tensor (length of its first row; a
zero-row tensor does not record a column count in this embedding). -/
def denseNumCols (t : Dense) : ℕ := (t.head?.getD []).length

/-- Embedding of `torch.cat(ts, dim=0)` on 2-D tensors: row-stacking, which
requires the inputs to agree on the column count (vacuous against an
accumulated tensor with no rows, whose column count is not recorded). -/
def denseCatRows : List Dense → Except CatError Dense
  | [] => .ok []
  | [t] => .ok t
  | t :: t' :: ts => do
    let rest ← denseCatRows (t' :: ts)
    if denseNumCols t = denseNumCols rest ∨ rest = ([] : Dense) then
      .ok (t ++ rest)
    else
      .error .colCountMismatch

/-- Embedding of `torch.cat(ts, dim=1)` on 2-D tensors: column-stacking,
which requires all inputs to agree on the row count. -/
def denseCatCols : List Dense → Except CatError Dense
  | [] => .ok []
  | [t] => .ok t
  | t :: t' :: ts => do
    let rest ← denseCatCols (t' :: ts)
    if t.length = rest.length then
      .ok (List.zipWith (· ++ ·) t rest)
    else
      .error .rowCountMismatch

/-- Embedding of `torch.cat` dispatching on the dimension. -/
def denseCat (ts : List Dense) (dim : ℕ) : Except CatError Dense :=
  if dim = 0 then denseCatRows ts else denseCatCols ts

/-- Physical storage attached to one semantic type inside a frame. -/
inductive TensorData where
  | dense (t : Dense)
  | mnt (t : MultiNestedTensor)
  | dict (d : List (String × MultiNestedTensor))
deriving DecidableEq

/-- Row count of a storage entry (for a named group, the row count of its
first member). -/
def TensorData.numRows : TensorData → ℕ
  | .dense t => t.length
  | .mnt t => t.rows.length
  | .dict d =>
    match d with
    | [] => 0
    | (_, t) :: _ => t.rows.length

/-- Column count of a storage entry (for a named group, the number of
members). -/
def TensorData.numCols : TensorData → ℕ
  | .dense t => denseNumCols t
  | .mnt t => (t.rows.head?.getD []).length
  | .dict d => d.length

/-- Does the storage's representation match the semantic type's declared
physical kind? -/
def TensorData.kindMatches : TensorData → Stype → Bool
  | .dense _, st => st.physicalKind = PhysKind.dense
  | .mnt _, st => st.physicalKind = PhysKind.ragged
  | .dict _, st => st.physicalKind = PhysKind.namedRaggedGroup

/-- Do all storages inside this entry (members of a named group included)
have exactly `n` rows? -/
def TensorData.rowsAllEq : TensorData → ℕ → Bool
  | .dense t, n => t.length = n
  | .mnt t, n => t.rows.length = n
  | .dict d, n => d.all (fun p => p.2.rows.length = n)

/-- The TensorFrame record: per-semantic-type storage, per-semantic-type
ordered column names, and an optional target vector.  Both mappings are
association lists, mirroring Python's insertion-ordered dicts. -/
structure TensorFrame where
  feat_dict : List (Stype × TensorData)
  col_names_dict : List (Stype × List String)
  y : Option (List ℚ)
deriving DecidableEq

/-- Shared row count of a frame: the row count of its first storage entry
(or of the target when no storage is present). -/
def frameNumRows (fd : List (Stype × TensorData)) (y : Option (List ℚ)) : ℕ :=
  match fd with
  | (_, d) :: _ => d.numRows
  | [] => (y.getD []).length

def TensorFrame.numRows (tf : TensorFrame) : ℕ :=
  frameNumRows tf.feat_dict tf.y

/-- Is a dense tensor rectangular, a ragged tensor a proper grid, and a
named group free of duplicate member names? -/
def TensorData.shapeOK : TensorData → Bool
  | .dense t => t.all (fun r => r.length = denseNumCols t)
  | .mnt t => t.rows.all (fun r => r.length = (t.rows.head?.getD []).length)
  | .dict d => (d.map Prod.fst).Nodup

/-- Modelled from the spec: the `TensorFrame` constructor validation.  The
spec's frame invariants are checked at construction: (2) all storages
(named-group members included) and the target share one row count — checked
first, a violation being a row-count mismatch; then (1) each semantic type
present in the storage has a column-name list of matching length, (3) the
names within each semantic type are unique, (4) every storage entry has at
least one column, and the storage representation matches the semantic
type's declared physical kind. -/
def mkTF (fd : List (Stype × TensorData)) (cn : List (Stype × List String))
    (y : Option (List ℚ)) : Except CatError TensorFrame :=
  let nr := frameNumRows fd y
  if fd.all (fun p => p.2.rowsAllEq nr) ∧ (∀ ys ∈ y, ys.length = nr) then
    if fd.all (fun p =>
        match alookup p.1 cn with
        | some ns =>
          decide (ns.length = p.2.numCols) && decide ns.Nodup &&
            decide (1 ≤ p.2.numCols) && p.2.kindMatches p.1 && p.2.shapeOK
        | none => false) then
      .ok ⟨fd, cn, y⟩
    else
      .error .invalidFrame
  else
    .error .rowCountMismatch

/-- Python dict equality on association lists: the same keys are present and
each key maps to the same value (key insertion order is irrelevant, but the
value lists themselves are compared element-wise, order included). -/
def pyDictEq (a b : List (Stype × List String)) : Bool :=
  a.all (fun p => alookup p.1 b == some p.2) && b.all (fun p => alookup p.1 a == some p.2)

/-- Deduplication keeping the first occurrence of each element, in order of
first appearance — the key order produced by Python's insertion-ordered
dicts. -/
def firstDedup {α : Type} [DecidableEq α] : List α → List α
  | [] => []
  | a :: l => a :: (firstDedup l).filter (fun x => x ≠ a)

/-- Well-formedness of a frame: it has at least one storage entry, it
passes the constructor validation, its two mappings have unique keys, and
both mappings present exactly the same semantic types. -/
def TensorFrame.WF (tf : TensorFrame) : Prop :=
  tf.feat_dict ≠ [] ∧
  mkTF tf.feat_dict tf.col_names_dict tf.y = .ok tf ∧
  (tf.feat_dict.map Prod.fst).Nodup ∧
  (tf.col_names_dict.map Prod.fst).Nodup ∧
  (∀ p ∈ tf.feat_dict, p.1 ∈ tf.col_names_dict.map Prod.fst) ∧
  (∀ p ∈ tf.col_names_dict, p.1 ∈ tf.feat_dict.map Prod.fst)

instance tensorFrameWFDecidable (tf : TensorFrame) : Decidable tf.WF := by
  unfold TensorFrame.WF
  infer_instance

/-- Extract a dense payload (duck-typing in Python; a wrong representation
under a dense semantic type would fail inside `torch.cat`). -/
def expectDense : TensorData → Except CatError Dense
  | .dense t => .ok t
  | _ => .error .typeError

def expectMnt : TensorData → Except CatError MultiNestedTensor
  | .mnt t => .ok t
  | _ => .error .typeError

def expectDict : TensorData → Except CatError (List (String × MultiNestedTensor))
  | .dict d => .ok d
  | _ => .error .typeError

def mapExcept {ε α β : Type} (f : α → Except ε β) : List α → Except ε (List β)
  | [] => .ok []
  | a :: l => do
    let b ← f a
    let rest ← mapExcept f l
    .ok (b :: rest)

/-- Embedding of the named-group branch of `_cat_helper`: for each member
name of the first input group (in order), look the member up in every input
group — a missing member raises a `KeyError` — and concatenate the found
members along `dim`.  Member names present only in later groups are never
visited. -/
def dictCat (ds : List (List (String × MultiNestedTensor))) (dim : ℕ) :
    Except CatError (List (String × MultiNestedTensor)) :=
  match ds with
  | [] => .ok []
  | d0 :: _ =>
    mapExcept (fun name => do
      let feats ← mapExcept (fun d =>
        match alookup name d with
        | some t => .ok t
        | none => .error (.keyError name)) ds
      let t ← MultiNestedTensor.cat feats dim
      .ok (name, t)) (d0.map Prod.fst)

/-- Embedding of the per-semantic-type body of `_cat_helper`: collect the
storages of that type from every frame carrying it (in input order) and
concatenate them with the representation-specific rule. -/
def catOne (tfs : List TensorFrame) (st : Stype) (dim : ℕ) : Except CatError TensorData :=
  let feats := tfs.filterMap (fun tf => alookup st tf.feat_dict)
  match st.physicalKind with
  | .ragged => do
    let ms ← mapExcept expectMnt feats
    let m ← MultiNestedTensor.cat ms dim
    .ok (.mnt m)
  | .namedRaggedGroup => do
    let gs ← mapExcept expectDict feats
    let g ← dictCat gs dim
    .ok (.dict g)
  | .dense => do
    let ts ← mapExcept expectDense feats
    let t ← denseCat ts dim
    .ok (.dense t)

def catHelperGo (tfs : List TensorFrame) (dim : ℕ) :
    List Stype → Except CatError (List (Stype × TensorData))
  | [] => .ok []
  | st :: sts => do
    let d ← catOne tfs st dim
    let rest ← catHelperGo tfs dim sts
    .ok ((st, d) :: rest)

/-- Semantic types appearing in any input frame, in order of first
appearance — the key order of `_cat_helper`'s `defaultdict`. -/
def allStypes (tfs : List TensorFrame) : List Stype :=
  firstDedup (tfs.flatMap (fun tf => tf.feat_dict.map Prod.fst))

/-- Embedding of `_cat_helper`: the concatenated `feat_dict`. -/
def catHelper (tfs : List TensorFrame) (dim : ℕ) :
    Except CatError (List (Stype × TensorData)) :=
  catHelperGo tfs dim (allStypes tfs)

/-- Embedding of `_cat_row`. -/
def catRow : List TensorFrame → Except CatError TensorFrame
  | [] => .error .emptyInput
  | tf0 :: rest =>
    if rest.all (fun tf => pyDictEq tf.col_names_dict tf0.col_names_dict) then
      if ((tf0.y.isNone ∧ (tf0 :: rest).all (fun tf => tf.y.isNone)) ∨
          (tf0.y.isSome ∧ (tf0 :: rest).all (fun tf => tf.y.isSome))) then
        let y : Option (List ℚ) :=
          if tf0.y.isSome then some (((tf0 :: rest).filterMap TensorFrame.y).flatten)
          else none
        do
          let fd ← catHelper (tf0 :: rest) 0
          mkTF fd tf0.col_names_dict y
      else
        .error .targetMismatch
    else
      .error (.schemaMismatch tf0.col_names_dict)

/-- Embedding of `_get_duplicates`: the distinct values occurring more than
once, in order of first appearance (the key order of `Counter`). -/
def getDuplicates (l : List String) : List String :=
  (firstDedup l).filter (fun x => 1 < l.count x)

/-- Embedding of the merged column-name mapping built by `_cat_col`: for
each semantic type appearing in any input (in order of first appearance),
the concatenation, in input order, of the inputs' name lists for it. -/
def mergeColNames (tfs : List TensorFrame) : List (Stype × List String) :=
  (firstDedup (tfs.flatMap (fun tf => tf.col_names_dict.map Prod.fst))).map
    (fun st => (st, tfs.flatMap (fun tf => (alookup st tf.col_names_dict).getD [])))

/-- First semantic type (in mapping order) whose merged name list contains
duplicates, together with all of its duplicated names. -/
def findDup : List (Stype × List String) → Option (Stype × List String)
  | [] => none
  | (st, ns) :: rest =>
    if getDuplicates ns ≠ [] then some (st, getDuplicates ns) else findDup rest

/-- The part of `_cat_col` after target resolution: build the merged
column-name mapping, reject duplicate names per semantic type, then
concatenate the storages along the column axis and construct the result. -/
def catColAfterY (tfs : List TensorFrame) (y : Option (List ℚ)) :
    Except CatError TensorFrame :=
  let cn := mergeColNames tfs
  match findDup cn with
  | some (st, dups) => .error (.duplicateColumn st dups)
  | none => do
    let fd ← catHelper tfs 1
    mkTF fd cn y

/-- Embedding of `_cat_col`: the frames carrying a non-absent target are
counted; none means an absent result target, exactly one means that target,
and more than one is an error. -/
def catCol (tfs : List TensorFrame) : Except CatError TensorFrame :=
  match tfs.filterMap TensorFrame.y with
  | [] => catColAfterY tfs none
  | [y0] => catColAfterY tfs (some y0)
  | _ :: _ :: _ => .error .ambiguousTarget

/-- Embedding of `cat`. -/
def cat (tfs : List TensorFrame) (along : String) : Except CatError TensorFrame :=
  if tfs.length = 0 then .error .emptyInput
  else if along = "row" then catRow tfs
  else if along = "col" then catCol tfs
  else .error (.badAlong along)

/-- The named-group payloads stored under a semantic type across a list of
frames, in input order. -/
def dictPayloads (tfs : List TensorFrame) (st : Stype) :
    List (List (String × MultiNestedTensor)) :=
  (tfs.filterMap (fun tf => alookup st tf.feat_dict)).filterMap
    (fun d => match d with | .dict g => some g | _ => none)

/-- Every member name of the first group is present in every group (the
condition under which the named-group branch of `_cat_helper` raises no
`KeyError`). -/
def dictKeysAligned (gs : List (List (String × MultiNestedTensor))) : Prop :=
  match gs with
  | [] => True
  | g0 :: _ => ∀ name ∈ g0.map Prod.fst, ∀ g ∈ gs, (alookup name g).isSome = true

instance dictKeysAlignedDecidable (gs : List (List (String × MultiNestedTensor))) :
    Decidable (dictKeysAligned gs) := by
  unfold dictKeysAligned
  split <;> infer_instance

/-- All named-group storages appearing under each semantic type have their
member names aligned on the first group's names. -/
def dictCompat (tfs : List TensorFrame) : Prop :=
  ∀ st ∈ allStypes tfs, dictKeysAligned (dictPayloads tfs st)

instance dictCompatDecidable (tfs : List TensorFrame) : Decidable (dictCompat tfs) := by
  unfold dictCompat
  infer_instance

/-- Concrete two-row numerical frame with columns `n1`, `n2`. -/
def frN : TensorFrame :=
  ⟨[(.numerical, .dense [[1, 2], [3, 4]])], [(.numerical, ["n1", "n2"])], none⟩

/-- Like `frN` but with the column names in the opposite order. -/
def frNswap : TensorFrame :=
  ⟨[(.numerical, .dense [[5, 6], [7, 8]])], [(.numerical, ["n2", "n1"])], none⟩

/-- Like `frN` but carrying a target vector. -/
def frNy : TensorFrame :=
  ⟨[(.numerical, .dense [[5, 6], [7, 8]])], [(.numerical, ["n1", "n2"])], some [1, 2]⟩

/-- Like `frN` (same column names, no target), other values. -/
def frN2 : TensorFrame :=
  ⟨[(.numerical, .dense [[5, 6], [7, 8]])], [(.numerical, ["n1", "n2"])], none⟩

/-- Concrete two-row categorical frame with column `c1`. -/
def frC : TensorFrame :=
  ⟨[(.categorical, .dense [[7], [8]])], [(.categorical, ["c1"])], none⟩

/-- Like `frC` but carrying a target vector. -/
def frCy : TensorFrame :=
  ⟨[(.categorical, .dense [[7], [8]])], [(.categorical, ["c1"])], some [3, 4]⟩

/-- Concrete one-row categorical frame with column `c1`. -/
def frC1 : TensorFrame :=
  ⟨[(.categorical, .dense [[7]])], [(.categorical, ["c1"])], none⟩

/-- Concrete two-row numerical frame whose single column is also named
`n1`, clashing with `frN`. -/
def frDup : TensorFrame :=
  ⟨[(.numerical, .dense [[9], [10]])], [(.numerical, ["n1"])], none⟩

/-- Concrete named group with the single member `a`. -/
def grpA : List (String × MultiNestedTensor) := [("a", ⟨[[[1]], [[2]]]⟩)]

/-- Concrete named group with members `a` and `b`. -/
def grpAB : List (String × MultiNestedTensor) :=
  [("a", ⟨[[[3]], [[4]]]⟩), ("b", ⟨[[[5]], [[6]]]⟩)]

/-- Scalar floating-point values, modelled exactly: a finite rational, the
not-a-number value, or one of the two infinities. -/
inductive Scalar where
  | fin (q : ℚ)
  | nan
  | pinf
  | ninf
deriving DecidableEq

def Scalar.isFiniteS : Scalar → Bool
  | .fin _ => true
  | _ => false

/-- One cell of a pandas Series: a scalar, a sequence of scalars (a cell of
a sequence-numerical column), or a string (categorical / multicategorical).
A missing cell is the scalar not-a-number, as in pandas. -/
inductive Cell where
  | sc (s : Scalar)
  | seq (ls : List Scalar)
  | str (s : String)
deriving DecidableEq

/-- Embedding of `pandas.isnull` on a cell: only the scalar not-a-number is
missing; list-valued and string cells never are. -/
def Cell.isNull : Cell → Bool
  | .sc .nan => true
  | _ => false

/-- Embedding of `ser.mask(ser.isin([np.inf, -np.inf]), np.nan)`. -/
def maskInf : Cell → Cell
  | .sc .pinf => .sc .nan
  | .sc .ninf => .sc .nan
  | c => c

/-- The scalars a cell contributes to `np.hstack` flattening. -/
def Cell.flat : Cell → List Scalar
  | .sc s => [s]
  | .seq ls => ls
  | .str _ => []

/-- Errors raised by the statistics engine. -/
inductive StatError where
  | missingSeparator
  | numpyEmptyConcat
  | timestampNotModelled
deriving DecidableEq

/-- Embedding of `np.hstack(np.hstack(ser.values))`: flattens the cells'
values into one list.  `np.hstack` raises when given zero arrays to
concatenate, which happens when the series is empty or when every cell is
an empty sequence. -/
def hstack2 (cells : List Cell) : Except StatError (List Scalar) :=
  if cells.isEmpty then .error .numpyEmptyConcat
  else
    let flat := cells.flatMap Cell.flat
    if flat.isEmpty then .error .numpyEmptyConcat else .ok flat

/-- The finite values among a list of scalars (`flattened[finite_mask]`). -/
def finiteVals (l : List Scalar) : List ℚ :=
  l.filterMap (fun s => match s with | .fin q => some q | _ => none)

/-- Embedding of `np.mean`. -/
def npMean (l : List ℚ) : ℚ := l.sum / l.length

/-- The radicand of `np.std` (population convention, `ddof = 0`): the mean
of the squared deviations from the mean.  `np.std` itself is the square
root of this quantity. -/
def npVarPop (l : List ℚ) : ℚ := (l.map (fun x => (x - npMean l) ^ 2)).sum / l.length

/-- Ascending insertion of a value into a list. -/
def insertAsc (x : ℚ) : List ℚ → List ℚ
  | [] => [x]
  | y :: ys => if x ≤ y then x :: y :: ys else y :: insertAsc x ys

/-- Ascending sort (the sorting `np.quantile` performs on its input). -/
def sortAsc (l : List ℚ) : List ℚ := l.foldr insertAsc []

/-- Embedding of `np.quantile(l, q)` with the default linear interpolation:
with the data sorted ascending and `h = q * (n - 1)`, interpolate between
the floor index and the next index (clamped to the last element). -/
def npQuantile (l : List ℚ) (q : ℚ) : ℚ :=
  let s := sortAsc l
  let n := s.length
  let h : ℚ := q * ((n : ℚ) - 1)
  let i : ℕ := (Int.floor h).toNat
  let g : ℚ := h - (i : ℚ)
  s.getD i 0 + g * (s.getD (min (i + 1) (n - 1)) 0 - s.getD i 0)

/-- Descending insertion by count: walk past entries with a strictly larger
count and insert before the first entry whose count is at most the new
entry's.  Used under `foldr`, this yields a stable descending sort. -/
def insertCountDesc (x : Cell × ℕ) : List (Cell × ℕ) → List (Cell × ℕ)
  | [] => [x]
  | y :: ys => if y.2 ≤ x.2 then x :: y :: ys else y :: insertCountDesc x ys

/-- Stable sort of a count table by descending count. -/
def sortCountDesc (l : List (Cell × ℕ)) : List (Cell × ℕ) := l.foldr insertCountDesc []

/-- The distinct values of a list in order of first appearance, each paired
with its number of occurrences — the table pandas builds before sorting. -/
def countTable (cells : List Cell) : List (Cell × ℕ) :=
  (firstDedup cells).map (fun c => (c, cells.count c))

/-- Embedding of `ser.value_counts(ascending=False)`: missing values are
excluded, the distinct remaining values are collected in order of first
appearance with their occurrence counts, and the table is sorted by
descending count (ties keeping first-appearance order). -/
def valueCounts (cells : List Cell) : List (Cell × ℕ) :=
  sortCountDesc (countTable (cells.filter (fun c => !c.isNull)))

/-- Statistic kinds (`StatType`). -/
inductive StatType where
  | MEAN
  | STD
  | QUANTILES
  | COUNT
  | MULTI_COUNT
  | YEAR_RANGE
  | EMB_DIM
deriving DecidableEq

/-- Embedding of `StatType.stats_for_stype`. -/
def statsForStype : Stype → List StatType
  | .numerical => [.MEAN, .STD, .QUANTILES]
  | .categorical => [.COUNT]
  | .multicategorical => [.MULTI_COUNT]
  | .sequence_numerical => [.MEAN, .STD, .QUANTILES]
  | .timestamp => [.YEAR_RANGE]
  | _ => []

/-- Floating-point results of the numerical statistics, kept exact: a
finite rational, not-a-number, or the square root of a rational (the form
`np.std` returns; the radicand is stored so no real-number arithmetic is
needed). -/
inductive FloatM where
  | fin (q : ℚ)
  | nan
  | sqrtOf (q : ℚ)
deriving DecidableEq

/-- Values a statistic computation can return. -/
inductive StatVal where
  | fl (x : FloatM)
  | flList (xs : List FloatM)
  | counts (ks : List Cell) (cs : List ℕ)
  | intV (n : ℤ)
  | noneV
deriving DecidableEq

/-- Does the second character list start with the first?  If so, return the
remainder after it. -/
def dropPfx : List Char → List Char → Option (List Char)
  | [], rest => some rest
  | _, [] => none
  | s :: ss, c :: cs => if c = s then dropPfx ss cs else none

/-- Prepend a character to the first token of a token list. -/
def consHead (c : Char) : List (List Char) → List (List Char)
  | [] => [[c]]
  | t :: ts => (c :: t) :: ts

/-- Python string splitting on a non-empty separator, written with explicit
fuel (an upper bound on the number of characters) so that every step is
structural: at a separator occurrence, close the current token; otherwise
move one character into the current token. -/
def splitGo (sep : List Char) : ℕ → List Char → List (List Char)
  | _, [] => [[]]
  | 0, l => [l]
  | fuel + 1, c :: cs =>
    match dropPfx sep (c :: cs) with
    | some rest => [] :: splitGo sep fuel rest
    | none => consHead c (splitGo sep fuel cs)

/-- Modelled from the spec: `MultiCategoricalTensorMapper.split_by_sep`
(its module is not part of the embedded sources) splits a cell into zero or
more category tokens using the caller-supplied separator string, as
Python's `row.split(sep)` does; a non-string cell is left as is. -/
def splitBySep (sep : String) : Cell → List Cell
  | .str v => (splitGo sep.toList (v.toList.length + 1) v.toList).map
      (fun cs => Cell.str (String.mk cs))
  | c => [c]

/-- Embedding of `StatType.compute`.  The series it receives has already
been stripped of missing cells by `compute_col_stats`. -/
def StatType.compute (t : StatType) (ser : List Cell) (sep : Option String) :
    Except StatError StatVal :=
  match t with
  | .MEAN => do
    let flat ← hstack2 ser
    let fin := finiteVals flat
    if fin.isEmpty then .ok (.fl .nan) else .ok (.fl (.fin (npMean fin)))
  | .STD => do
    let flat ← hstack2 ser
    let fin := finiteVals flat
    if fin.isEmpty then .ok (.fl .nan) else .ok (.fl (.sqrtOf (npVarPop fin)))
  | .QUANTILES => do
    let flat ← hstack2 ser
    let fin := finiteVals flat
    if fin.isEmpty then .ok (.flList [.nan, .nan, .nan, .nan, .nan])
    else
      .ok (.flList (([0, 1/4, 1/2, 3/4, 1] : List ℚ).map
        (fun q => FloatM.fin (npQuantile fin q))))
  | .COUNT =>
    let vc := valueCounts ser
    .ok (.counts (vc.map Prod.fst) (vc.map Prod.snd))
  | .MULTI_COUNT =>
    match sep with
    | none => .error .missingSeparator
    | some s =>
      let exploded := (ser.map (splitBySep s)).flatten
      let vc := valueCounts (exploded.filter (fun c => !c.isNull))
      .ok (.counts (vc.map Prod.fst) (vc.map Prod.snd))
  | .YEAR_RANGE => .error .timestampNotModelled
  | .EMB_DIM => .ok .noneV

/-- Embedding of `_default_values` (`YEAR_RANGE` and `EMB_DIM` defaults
included for completeness). -/
def defaultValue : StatType → StatVal
  | .MEAN => .fl .nan
  | .STD => .fl .nan
  | .QUANTILES => .flList [.nan, .nan, .nan, .nan, .nan]
  | .COUNT => .counts [] []
  | .MULTI_COUNT => .counts [] []
  | .YEAR_RANGE => .flList [.nan, .nan]
  | .EMB_DIM => .intV (-1)

def computeGo (ser : List Cell) (sep : Option String) :
    List StatType → Except StatError (List (StatType × StatVal))
  | [] => .ok []
  | t :: ts => do
    let v ← t.compute ser sep
    let rest ← computeGo ser sep ts
    .ok ((t, v) :: rest)

/-- Embedding of `compute_col_stats`: for a numerical column the two
infinities are first masked to not-a-number; an all-missing column yields
every applicable statistic's sentinel default without computing; otherwise
each applicable statistic is computed over the series with missing cells
dropped. -/
def computeColStats (ser : List Cell) (st : Stype) (sep : Option String) :
    Except StatError (List (StatType × StatVal)) :=
  let ser := if st = Stype.numerical then ser.map maskInf else ser
  if ser.all Cell.isNull then
    .ok ((statsForStype st).map (fun t => (t, defaultValue t)))
  else
    computeGo (ser.filter (fun c => !c.isNull)) sep (statsForStype st)

/-- Spec-side reading of the arithmetic mean: the sum divided by the number
of values. -/
def specMean (l : List ℚ) : ℚ := l.sum / l.length

/-- Spec-side reading of the population variance, written in the
mean-of-squares form: the mean of the squares minus the square of the mean.
The population standard deviation is its square root. -/
def specVariance (l : List ℚ) : ℚ :=
  (l.map (fun x => x ^ 2)).sum / l.length - specMean l ^ 2

/-- Spec-side reading of the minimum of a list of values. -/
def specMin : List ℚ → ℚ
  | [] => 0
  | [x] => x
  | x :: y :: ys => min x (specMin (y :: ys))

/-- Spec-side reading of the maximum of a list of values. -/
def specMax : List ℚ → ℚ
  | [] => 0
  | [x] => x
  | x :: y :: ys => max x (specMax (y :: ys))

/-- Spec-side reading of the median: with the values sorted ascending, the
middle value when the length is odd, and the average of the two middle
values when it is even. -/
def specMedian (l : List ℚ) : ℚ :=
  let s := sortAsc l
  let n := s.length
  if n % 2 = 1 then s.getD (n / 2) 0
  else (s.getD (n / 2 - 1) 0 + s.getD (n / 2) 0) / 2

/-- Extract the finite payload of a scalar cell. -/
def finCell : Cell → Option ℚ
  | .sc (.fin q) => some q
  | _ => none

/-- Spec-side reading of the full numerical statistics record over the
finite values: arithmetic mean, population standard deviation (the square
root of the mean-of-squares variance), and the five-point quantile summary
minimum / 25th percentile / median / 75th percentile / maximum. -/
def specNumStats (vals : List ℚ) : List (StatType × StatVal) :=
  [(.MEAN, .fl (.fin (specMean vals))),
   (.STD, .fl (.sqrtOf (specVariance vals))),
   (.QUANTILES, .flList [.fin (specMin vals), .fin (npQuantile vals (1/4)),
     .fin (specMedian vals), .fin (npQuantile vals (3/4)), .fin (specMax vals)])]

/-- The sentinel record for a numerical column with no finite entries:
not-a-number mean and standard deviation, five not-a-number quantiles. -/
def sentinelNumStats : List (StatType × StatVal) :=
  [(.MEAN, .fl .nan), (.STD, .fl .nan),
   (.QUANTILES, .flList [.nan, .nan, .nan, .nan, .nan])]

section ExceptLemmas

variable {ε α β : Type}

theorem bind_eq_error_iff {e : Except ε α} {k : α → Except ε β} {c : ε} :
    (e >>= k) = .error c ↔ (e = .error c ∨ ∃ a, e = .ok a ∧ k a = .error c) := by
  cases e <;> simp [Bind.bind, Except.bind]

theorem bind_eq_ok_iff {e : Except ε α} {k : α → Except ε β} {b : β} :
    (e >>= k) = .ok b ↔ ∃ a, e = .ok a ∧ k a = .ok b := by
  cases e <;> simp [Bind.bind, Except.bind]

theorem mapExcept_eq_error {f : α → Except ε β} {l : List α} {c : ε}
    (h : mapExcept f l = .error c) : ∃ a ∈ l, f a = .error c := by
  induction l with
  | nil => simp [mapExcept] at h
  | cons a t ih =>
    rw [mapExcept, bind_eq_error_iff] at h
    rcases h with h | ⟨b, _, h⟩
    · exact ⟨a, by simp, h⟩
    · rw [bind_eq_error_iff] at h
      rcases h with h | ⟨bs, _, h⟩
      · rcases ih h with ⟨a', ha', hfa'⟩
        exact ⟨a', by simp [ha'], hfa'⟩
      · simp at h

theorem mapExcept_eq_ok_iff {f : α → Except ε β} {l : List α} {bs : List β} :
    mapExcept f l = .ok bs ↔ List.Forall₂ (fun a b => f a = .ok b) l bs := by
  induction l generalizing bs with
  | nil => cases bs <;> simp [mapExcept]
  | cons a t ih =>
    rw [mapExcept, bind_eq_ok_iff]
    constructor
    · rintro ⟨b, hb, h⟩
      rw [bind_eq_ok_iff] at h
      rcases h with ⟨rest, hrest, hok⟩
      cases hok
      exact List.Forall₂.cons hb (ih.1 hrest)
    · intro h
      cases h with
      | cons hb hrest => exact ⟨_, hb, by rw [bind_eq_ok_iff]; exact ⟨_, ih.2 hrest, rfl⟩⟩

end ExceptLemmas

theorem mntCatCols_error {ts : List MultiNestedTensor} {e : CatError}
    (h : MultiNestedTensor.catColsList ts = .error e) : e = .rowCountMismatch := by
  induction ts with
  | nil => simp [MultiNestedTensor.catColsList] at h
  | cons t ts ih =>
    cases ts with
    | nil => simp [MultiNestedTensor.catColsList] at h
    | cons t' ts' =>
      rw [MultiNestedTensor.catColsList, bind_eq_error_iff] at h
      rcases h with h | ⟨r, _, h⟩
      · exact ih h
      · split at h
        · simp at h
        · exact (Except.error.inj h).symm

theorem mntCat_error {ts : List MultiNestedTensor} {dim : ℕ} {e : CatError}
    (h : MultiNestedTensor.cat ts dim = .error e) : e = .rowCountMismatch := by
  rw [MultiNestedTensor.cat] at h
  split at h
  · simp at h
  · exact mntCatCols_error h

theorem denseCatRows_error {ts : List Dense} {e : CatError}
    (h : denseCatRows ts = .error e) : e = .colCountMismatch := by
  induction ts with
  | nil => simp [denseCatRows] at h
  | cons t ts ih =>
    cases ts with
    | nil => simp [denseCatRows] at h
    | cons t' ts' =>
      rw [denseCatRows, bind_eq_error_iff] at h
      rcases h with h | ⟨r, _, h⟩
      · exact ih h
      · split at h
        · simp at h
        · exact (Except.error.inj h).symm

theorem denseCatCols_error {ts : List Dense} {e : CatError}
    (h : denseCatCols ts = .error e) : e = .rowCountMismatch := by
  induction ts with
  | nil => simp [denseCatCols] at h
  | cons t ts ih =>
    cases ts with
    | nil => simp [denseCatCols] at h
    | cons t' ts' =>
      rw [denseCatCols, bind_eq_error_iff] at h
      rcases h with h | ⟨r, _, h⟩
      · exact ih h
      · split at h
        · simp at h
        · exact (Except.error.inj h).symm

theorem dictCat_error {ds : List (List (String × MultiNestedTensor))} {dim : ℕ}
    {e : CatError} (h : dictCat ds dim = .error e) :
    e = .rowCountMismatch ∨ ∃ n, e = .keyError n := by
  rcases ds with _ | ⟨d0, ds'⟩
  · simp [dictCat] at h
  · rw [dictCat] at h
    rcases mapExcept_eq_error h with ⟨name, _, hname⟩
    rw [bind_eq_error_iff] at hname
    rcases hname with hname | ⟨feats, _, hname⟩
    · rcases mapExcept_eq_error hname with ⟨d, _, hd⟩
      rcases hl : alookup name d with _ | t <;> rw [hl] at hd
      · exact Or.inr ⟨name, (Except.error.inj hd).symm⟩
      · simp at hd
    · rw [bind_eq_error_iff] at hname
      rcases hname with hname | ⟨t, _, hname⟩
      · exact Or.inl (mntCat_error hname)
      · simp at hname

theorem catOne_error {tfs : List TensorFrame} {st : Stype} {dim : ℕ} {e : CatError}
    (h : catOne tfs st dim = .error e) :
    e = .rowCountMismatch ∨ e = .colCountMismatch ∨ e = .typeError ∨ ∃ n, e = .keyError n := by
  rw [catOne] at h
  split at h
  · rw [bind_eq_error_iff] at h
    rcases h with h | ⟨ms, _, h⟩
    · rcases mapExcept_eq_error h with ⟨d, _, hd⟩
      cases d <;> simp [expectMnt] at hd <;> simp [← hd]
    · rw [bind_eq_error_iff] at h
      rcases h with h | ⟨m, _, h⟩
      · exact Or.inl (mntCat_error h)
      · simp at h
  · rw [bind_eq_error_iff] at h
    rcases h with h | ⟨gs, _, h⟩
    · rcases mapExcept_eq_error h with ⟨d, _, hd⟩
      cases d <;> simp [expectDict] at hd <;> simp [← hd]
    · rw [bind_eq_error_iff] at h
      rcases h with h | ⟨g, _, h⟩
      · rcases dictCat_error h with h | h
        · exact Or.inl h
        · exact Or.inr (Or.inr (Or.inr h))
      · simp at h
  · rw [bind_eq_error_iff] at h
    rcases h with h | ⟨ts, _, h⟩
    · rcases mapExcept_eq_error h with ⟨d, _, hd⟩
      cases d <;> simp [expectDense] at hd <;> simp [← hd]
    · rw [bind_eq_error_iff] at h
      rcases h with h | ⟨t, _, h⟩
      · rw [denseCat] at h
        split at h
        · exact Or.inr (Or.inl (denseCatRows_error h))
        · exact Or.inl (denseCatCols_error h)
      · simp at h

theorem catHelperGo_error {tfs : List TensorFrame} {dim : ℕ} {sts : List Stype}
    {e : CatError} (h : catHelperGo tfs dim sts = .error e) :
    e = .rowCountMismatch ∨ e = .colCountMismatch ∨ e = .typeError ∨ ∃ n, e = .keyError n := by
  induction sts with
  | nil => simp [catHelperGo] at h
  | cons st sts ih =>
    rw [catHelperGo, bind_eq_error_iff] at h
    rcases h with h | ⟨d, _, h⟩
    · exact catOne_error h
    · rw [bind_eq_error_iff] at h
      rcases h with h | ⟨rest, _, h⟩
      · exact ih h
      · simp at h

theorem mkTF_error {fd : List (Stype × TensorData)} {cn : List (Stype × List String)}
    {y : Option (List ℚ)} {e : CatError} (h : mkTF fd cn y = .error e) :
    e = .rowCountMismatch ∨ e = .invalidFrame := by
  rw [mkTF] at h
  split at h
  · split at h
    · simp at h
    · exact Or.inr (Except.error.inj h).symm
  · exact Or.inl (Except.error.inj h).symm

theorem mkTF_ok {fd : List (Stype × TensorData)} {cn : List (Stype × List String)}
    {y : Option (List ℚ)} {tf : TensorFrame} (h : mkTF fd cn y = .ok tf) :
    tf = ⟨fd, cn, y⟩ := by
  rw [mkTF] at h
  split at h
  · split at h
    · exact (Except.ok.inj h).symm
    · simp at h
  · simp at h

theorem pyDictEq_false_of_alookup_ne {a b : List (Stype × List String)} {st : Stype}
    {ns ns0 : List String} (ha : alookup st a = some ns) (hb : alookup st b = some ns0)
    (hne : ns ≠ ns0) : ¬ pyDictEq a b = true := by
  intro h
  unfold pyDictEq at h
  rw [Bool.and_eq_true] at h
  have h1 := List.all_eq_true.1 h.1 (st, ns) (alookup_mem ha)
  simp only [beq_iff_eq] at h1
  rw [hb] at h1
  exact hne (Option.some.inj h1).symm

/-- C4: row concatenation fails with a schema-mismatch error naming the
expected mapping whenever some later frame's column-name mapping differs
(as a Python dict) from the first frame's; in particular a frame whose
name list for some semantic type differs from the first frame's — for
example the same names in a different order — makes the operation fail. -/
theorem catRow_schemaMismatch (tf0 : TensorFrame) (rest : List TensorFrame) :
    ((∃ tf ∈ rest, ¬ pyDictEq tf.col_names_dict tf0.col_names_dict = true) →
      catRow (tf0 :: rest) = .error (.schemaMismatch tf0.col_names_dict)) ∧
    (∀ tf ∈ rest, ∀ st ns ns0,
      alookup st tf.col_names_dict = some ns →
      alookup st tf0.col_names_dict = some ns0 → ns ≠ ns0 →
      catRow (tf0 :: rest) = .error (.schemaMismatch tf0.col_names_dict)) := by
  have main : (∃ tf ∈ rest, ¬ pyDictEq tf.col_names_dict tf0.col_names_dict = true) →
      catRow (tf0 :: rest) = .error (.schemaMismatch tf0.col_names_dict) := by
    rintro ⟨tf, htf, hne⟩
    rw [catRow, if_neg]
    intro hall
    exact hne (List.all_eq_true.1 hall tf htf)
  refine ⟨main, ?_⟩
  intro tf htf st ns ns0 ha hb hne
  exact main ⟨tf, htf, pyDictEq_false_of_alookup_ne ha hb hne⟩

theorem catRow_schemaMismatch_witness :
    catRow [frN, frNswap] = .error (.schemaMismatch frN.col_names_dict) :=
  (catRow_schemaMismatch frN [frNswap]).2 frNswap (by simp) .numerical
    ["n2", "n1"] ["n1", "n2"] rfl rfl (by decide)

/-- C9: under matching column-name mappings, row concatenation fails with
the target-mismatch error exactly when target presence is inconsistent —
some input frames have a target and others do not. -/
theorem catRow_targetMismatch (tf0 : TensorFrame) (rest : List TensorFrame)
    (hs : ∀ tf ∈ rest, pyDictEq tf.col_names_dict tf0.col_names_dict = true) :
    (catRow (tf0 :: rest) = .error .targetMismatch ↔
      ¬ ((∀ tf ∈ tf0 :: rest, tf.y.isSome = true) ∨
         (∀ tf ∈ tf0 :: rest, tf.y.isNone = true))) := by
  have hCD : ((tf0.y.isNone ∧ (tf0 :: rest).all (fun tf => tf.y.isNone)) ∨
      (tf0.y.isSome ∧ (tf0 :: rest).all (fun tf => tf.y.isSome))) ↔
      ((∀ tf ∈ tf0 :: rest, tf.y.isSome = true) ∨
       (∀ tf ∈ tf0 :: rest, tf.y.isNone = true)) := by
    constructor
    · rintro (⟨_, h⟩ | ⟨_, h⟩)
      · exact Or.inr (fun tf htf => List.all_eq_true.1 h tf htf)
      · exact Or.inl (fun tf htf => List.all_eq_true.1 h tf htf)
    · rintro (h | h)
      · exact Or.inr ⟨h tf0 (by simp), List.all_eq_true.2 h⟩
      · exact Or.inl ⟨h tf0 (by simp), List.all_eq_true.2 h⟩
  rw [catRow, if_pos (List.all_eq_true.2 hs)]
  split
  next hC =>
    constructor
    · intro h
      exfalso
      rw [bind_eq_error_iff] at h
      rcases h with h | ⟨fd, _, h⟩
      · rw [catHelper] at h
        rcases catHelperGo_error h with h | h | h | ⟨n, h⟩ <;> simp at h
      · rcases mkTF_error h with h | h <;> simp at h
    · intro h
      exact absurd (hCD.1 hC) h
  next hC =>
    constructor
    · intro _
      exact fun hD => hC (hCD.2 hD)
    · intro _
      rfl

theorem catRow_targetMismatch_witness : catRow [frN, frNy] = .error .targetMismatch :=
  (catRow_targetMismatch frN [frNy] (by decide)).2 (by decide)

theorem catColAfterY_ok {tfs : List TensorFrame} {y : Option (List ℚ)} {tf' : TensorFrame}
    (h : catColAfterY tfs y = .ok tf') :
    tf'.col_names_dict = mergeColNames tfs ∧ tf'.y = y ∧
    ∃ fd, catHelper tfs 1 = .ok fd ∧ tf'.feat_dict = fd := by
  rw [catColAfterY] at h
  split at h
  · simp at h
  · rw [bind_eq_ok_iff] at h
    rcases h with ⟨fd, hfd, hmk⟩
    rw [mkTF_ok hmk]
    exact ⟨rfl, rfl, fd, hfd, rfl⟩

/-- C2: column concatenation of frames among which more than one carries a
non-absent target fails with the ambiguous-target error; when it succeeds,
the result's target is the first (hence unique) target carried by an input,
or absent when no input carries one. -/
theorem catCol_target (tfs : List TensorFrame) :
    (2 ≤ (tfs.filterMap TensorFrame.y).length → catCol tfs = .error .ambiguousTarget) ∧
    (∀ tf', catCol tfs = .ok tf' → tf'.y = (tfs.filterMap TensorFrame.y).head?) := by
  constructor
  · intro h2
    rw [catCol]
    rcases hys : tfs.filterMap TensorFrame.y with _ | ⟨y0, _ | ⟨y1, ys⟩⟩
    · rw [hys] at h2
      simp at h2
    · rw [hys] at h2
      simp at h2
    · rfl
  · intro tf' h
    rw [catCol] at h
    rcases hys : tfs.filterMap TensorFrame.y with _ | ⟨y0, _ | ⟨y1, ys⟩⟩ <;>
      rw [hys] at h
    · rw [(catColAfterY_ok h).2.1]
      rfl
    · rw [(catColAfterY_ok h).2.1]
      rfl
    · simp at h

theorem catCol_target_witness :
    catCol [frCy, frNy] = .error .ambiguousTarget ∧
    TensorFrame.y
      ⟨[(Stype.numerical, .dense [[1, 2], [3, 4]]),
          (Stype.categorical, .dense [[7], [8]])],
        [(Stype.numerical, ["n1", "n2"]), (Stype.categorical, ["c1"])],
        some [3, 4]⟩ = ([frN, frCy].filterMap TensorFrame.y).head? :=
  ⟨(catCol_target [frCy, frNy]).1 (by decide),
   (catCol_target [frN, frCy]).2 _ (by decide)⟩

theorem firstDedup_mem {α : Type} [DecidableEq α] {l : List α} {x : α} :
    x ∈ firstDedup l ↔ x ∈ l := by
  induction l with
  | nil => simp [firstDedup]
  | cons a t ih =>
    by_cases hx : x = a
    · subst hx
      simp [firstDedup]
    · simp [firstDedup, hx, ih]

theorem getDuplicates_mem {l : List String} {x : String} :
    x ∈ getDuplicates l ↔ 2 ≤ List.count x l := by
  unfold getDuplicates
  rw [List.mem_filter, firstDedup_mem]
  constructor
  · rintro ⟨_, h⟩
    simpa using of_decide_eq_true h
  · intro h
    refine ⟨List.count_pos_iff.1 (by omega), ?_⟩
    simp only [decide_eq_true_eq]
    omega

theorem getDuplicates_ne_nil {ns : List String} (h : ¬ ns.Nodup) :
    getDuplicates ns ≠ [] := by
  rw [List.nodup_iff_count_le_one] at h
  push_neg at h
  rcases h with ⟨x, hx⟩
  intro hnil
  have := getDuplicates_mem.2 (show 2 ≤ List.count x ns by omega)
  rw [hnil] at this
  simp at this

theorem findDup_some_of_mem {l : List (Stype × List String)} {st : Stype}
    {ns : List String} (hmem : (st, ns) ∈ l) (hne : getDuplicates ns ≠ []) :
    ∃ p, findDup l = some p := by
  induction l with
  | nil => simp at hmem
  | cons q t ih =>
    rcases q with ⟨st', ns'⟩
    by_cases hd : getDuplicates ns' ≠ []
    · exact ⟨(st', getDuplicates ns'), by simp [findDup, hd]⟩
    · rcases List.mem_cons.1 hmem with he | hmem'
      · rw [Prod.mk.injEq] at he
        exact absurd (he.2 ▸ hne) hd
      · rcases ih hmem' with ⟨p, hp⟩
        exact ⟨p, by simp [findDup, hd, hp]⟩

theorem findDup_eq_some {l : List (Stype × List String)} {st : Stype} {ds : List String}
    (h : findDup l = some (st, ds)) :
    ∃ ns, (st, ns) ∈ l ∧ ds = getDuplicates ns ∧ ds ≠ [] := by
  induction l with
  | nil => simp [findDup] at h
  | cons q t ih =>
    rcases q with ⟨st', ns'⟩
    by_cases hd : getDuplicates ns' ≠ []
    · simp only [findDup, if_pos hd] at h
      rcases Option.some.inj h with h'
      rw [Prod.mk.injEq] at h'
      exact ⟨ns', by simp [← h'.1], by rw [← h'.2], h'.2 ▸ hd⟩
    · simp only [findDup, if_neg hd] at h
      rcases ih h with ⟨ns, hmem, hds, hne⟩
      exact ⟨ns, List.mem_cons_of_mem _ hmem, hds, hne⟩

theorem mem_mergeColNames {tfs : List TensorFrame} {st : Stype} {ns : List String}
    (h : (st, ns) ∈ mergeColNames tfs) :
    ns = tfs.flatMap (fun tf => (alookup st tf.col_names_dict).getD []) := by
  unfold mergeColNames at h
  rcases List.mem_map.1 h with ⟨st', _, he⟩
  rw [Prod.mk.injEq] at he
  rw [← he.2, he.1]

/-- C5: column concatenation first builds, for each semantic type, the
concatenation in input order of the inputs' column-name lists, and only
then checks the combined list of each semantic type for duplicates; when a
combined list has a duplicate (and the target check passed), the operation
fails with a duplicate-column error whose name list contains exactly the
names occurring more than once in that semantic type's combined list — all
of them at once, wherever the conflicts came from. -/
theorem catCol_duplicateColumn (tfs : List TensorFrame)
    (hy : (tfs.filterMap TensorFrame.y).length ≤ 1)
    (st : Stype) (ns : List String)
    (hmem : (st, ns) ∈ mergeColNames tfs) (hdup : ¬ ns.Nodup) :
    (∀ st' ns', (st', ns') ∈ mergeColNames tfs →
      ns' = tfs.flatMap (fun tf => (alookup st' tf.col_names_dict).getD [])) ∧
    ∃ st' dups, catCol tfs = .error (.duplicateColumn st' dups) ∧
      ∃ ns', (st', ns') ∈ mergeColNames tfs ∧ ∀ x, (x ∈ dups ↔ 2 ≤ List.count x ns') := by
  refine ⟨fun st' ns' h => mem_mergeColNames h, ?_⟩
  rcases findDup_some_of_mem hmem (getDuplicates_ne_nil hdup) with ⟨⟨st', ds⟩, hfind⟩
  rcases findDup_eq_some hfind with ⟨ns', hmem', hds, _⟩
  refine ⟨st', ds, ?_, ns', hmem', fun x => hds ▸ getDuplicates_mem⟩
  have hafter : catColAfterY tfs = fun y => .error (.duplicateColumn st' ds) := by
    funext y
    rw [catColAfterY, hfind]
  rw [catCol]
  rcases hys : tfs.filterMap TensorFrame.y with _ | ⟨y0, _ | ⟨y1, ys⟩⟩
  · rw [hafter]
  · rw [hafter]
  · rw [hys] at hy
    simp at hy

theorem catCol_duplicateColumn_witness :
    ∃ st' dups, catCol [frN, frDup] = .error (.duplicateColumn st' dups) ∧
      ∃ ns', (st', ns') ∈ mergeColNames [frN, frDup] ∧
        ∀ x, (x ∈ dups ↔ 2 ≤ List.count x ns') :=
  (catCol_duplicateColumn [frN, frDup] (by decide) .numerical ["n1", "n2", "n1"]
    (by decide) (by decide)).2

theorem forall2_exists {α β : Type} {P : α → β → Prop} {l1 : List α} {l2 : List β}
    (h : List.Forall₂ P l1 l2) : ∀ a ∈ l1, ∃ b ∈ l2, P a b := by
  induction h with
  | nil => simp
  | cons hab _ ih =>
    intro a ha
    rcases List.mem_cons.1 ha with he | hm
    · exact ⟨_, by simp, he ▸ hab⟩
    · rcases ih a hm with ⟨b, hb, hPb⟩
      exact ⟨b, List.mem_cons_of_mem _ hb, hPb⟩

theorem mapExcept_ok_fst {β : Type} {f : String → Except CatError (String × β)}
    (hf : ∀ a b, f a = .ok b → b.1 = a)
    {names : List String} {r : List (String × β)}
    (h : mapExcept f names = .ok r) : r.map Prod.fst = names := by
  rw [mapExcept_eq_ok_iff] at h
  induction h with
  | nil => rfl
  | cons hab _ ih => simp [hf _ _ hab, ih]

theorem dictCat_ok_inv {d0 : List (String × MultiNestedTensor)}
    {ds : List (List (String × MultiNestedTensor))} {dim : ℕ}
    {r : List (String × MultiNestedTensor)}
    (h : dictCat (d0 :: ds) dim = .ok r) :
    r.map Prod.fst = d0.map Prod.fst ∧
    ∀ name ∈ d0.map Prod.fst, ∀ d ∈ d0 :: ds, (alookup name d).isSome = true := by
  rw [dictCat] at h
  constructor
  · refine mapExcept_ok_fst ?_ h
    intro a b hab
    rw [bind_eq_ok_iff] at hab
    rcases hab with ⟨feats, _, hab⟩
    rw [bind_eq_ok_iff] at hab
    rcases hab with ⟨t, _, hab⟩
    rw [← Except.ok.inj hab]
  · rw [mapExcept_eq_ok_iff] at h
    intro name hname d hd
    rcases forall2_exists h name hname with ⟨b, _, hb⟩
    rw [bind_eq_ok_iff] at hb
    rcases hb with ⟨feats, hfeats, _⟩
    rw [mapExcept_eq_ok_iff] at hfeats
    rcases forall2_exists hfeats d hd with ⟨t, _, ht⟩
    rcases hl : alookup name d with _ | t'
    · rw [hl] at ht
      simp at ht
    · simp

/-- C10 (implicit): concatenating the named-group storages of several
frames visits exactly the member names of the first group, in order: the
result's member names equal the first group's; a member name that the first
group has but some later group lacks makes the operation fail (a key
error); a member name present only in later groups is silently omitted,
since only the first group's names are visited. -/
theorem dictCat_memberNames (d0 : List (String × MultiNestedTensor))
    (ds : List (List (String × MultiNestedTensor))) (dim : ℕ) :
    (∀ r, dictCat (d0 :: ds) dim = .ok r → r.map Prod.fst = d0.map Prod.fst) ∧
    ((∃ name ∈ d0.map Prod.fst, ∃ d ∈ ds, alookup name d = none) →
      ∃ e, dictCat (d0 :: ds) dim = .error e) := by
  constructor
  · intro r hr
    exact (dictCat_ok_inv hr).1
  · rintro ⟨name, hname, d, hd, hnone⟩
    rcases hdc : dictCat (d0 :: ds) dim with e | r
    · exact ⟨e, rfl⟩
    · exfalso
      have := (dictCat_ok_inv hdc).2 name hname d (List.mem_cons_of_mem _ hd)
      rw [hnone] at this
      simp at this

theorem dictCat_memberNames_witness :
    List.map Prod.fst
        [("a", (⟨[[[1]], [[2]], [[3]], [[4]]]⟩ : MultiNestedTensor))] =
      grpA.map Prod.fst ∧
    ∃ e, dictCat [grpAB, grpA] 0 = .error e :=
  ⟨(dictCat_memberNames grpA [grpAB] 0).1 _ (by decide),
   (dictCat_memberNames grpAB [grpA] 0).2 ⟨"b", by decide, grpA, by decide, by decide⟩⟩

theorem filter_idem {α : Type} (p : α → Bool) (l : List α) :
    (l.filter p).filter p = l.filter p := by
  induction l with
  | nil => rfl
  | cons a t ih =>
    by_cases ha : p a = true
    · simp [List.filter_cons, ha, ih]
    · simp [List.filter_cons, ha, ih]

theorem firstDedup_nodup {α : Type} [DecidableEq α] (l : List α) :
    (firstDedup l).Nodup := by
  induction l with
  | nil => simp [firstDedup]
  | cons a t ih =>
    rw [firstDedup]
    refine List.Nodup.cons ?_ (List.Nodup.filter _ ih)
    intro hmem
    rcases List.mem_filter.1 hmem with ⟨_, hne⟩
    simp at hne

theorem insertCountDesc_perm (x : Cell × ℕ) (s : List (Cell × ℕ)) :
    (insertCountDesc x s).Perm (x :: s) := by
  induction s with
  | nil => rfl
  | cons y ys ih =>
    rw [insertCountDesc]
    by_cases hc : y.2 ≤ x.2
    · rw [if_pos hc]
    · rw [if_neg hc]
      exact (ih.cons y).trans (List.Perm.swap x y ys)

theorem sortCountDesc_perm (l : List (Cell × ℕ)) : (sortCountDesc l).Perm l := by
  induction l with
  | nil => rfl
  | cons x t ih =>
    rw [sortCountDesc, List.foldr_cons]
    exact (insertCountDesc_perm x _).trans (ih.cons x)

theorem insertCountDesc_sorted (x : Cell × ℕ) {s : List (Cell × ℕ)}
    (hs : s.Pairwise (fun a b => b.2 ≤ a.2)) :
    (insertCountDesc x s).Pairwise (fun a b => b.2 ≤ a.2) := by
  induction s with
  | nil => simp [insertCountDesc]
  | cons y ys ih =>
    rw [insertCountDesc]
    rw [List.pairwise_cons] at hs
    by_cases hc : y.2 ≤ x.2
    · rw [if_pos hc]
      rw [List.pairwise_cons]
      refine ⟨?_, List.pairwise_cons.2 hs⟩
      intro z hz
      rcases List.mem_cons.1 hz with he | hm
      · exact he ▸ hc
      · exact le_trans (hs.1 z hm) hc
    · rw [if_neg hc]
      rw [List.pairwise_cons]
      refine ⟨?_, ih hs.2⟩
      intro z hz
      rcases List.mem_cons.1 ((insertCountDesc_perm x ys).mem_iff.1 hz) with he | hm
      · rw [he]
        omega
      · exact hs.1 z hm

theorem sortCountDesc_sorted (l : List (Cell × ℕ)) :
    (sortCountDesc l).Pairwise (fun a b => b.2 ≤ a.2) := by
  induction l with
  | nil => simp [sortCountDesc]
  | cons x t ih =>
    rw [sortCountDesc, List.foldr_cons]
    exact insertCountDesc_sorted x ih

theorem insertCountDesc_filter (x : Cell × ℕ) {s : List (Cell × ℕ)}
    (hs : s.Pairwise (fun a b => b.2 ≤ a.2)) (c : ℕ) :
    (insertCountDesc x s).filter (fun p => p.2 = c) =
      if x.2 = c then x :: s.filter (fun p => p.2 = c)
      else s.filter (fun p => p.2 = c) := by
  induction s with
  | nil =>
    rw [insertCountDesc]
    by_cases hx : x.2 = c
    · simp [List.filter_cons, hx]
    · simp [List.filter_cons, hx]
  | cons y ys ih =>
    rw [insertCountDesc]
    rw [List.pairwise_cons] at hs
    by_cases hc : y.2 ≤ x.2
    · rw [if_pos hc]
      by_cases hx : x.2 = c
      · simp [List.filter_cons, hx]
      · simp [List.filter_cons, hx]
    · rw [if_neg hc]
      have hxy : x.2 < y.2 := by omega
      by_cases hx : x.2 = c
      · have hyc : ¬ y.2 = c := by omega
        simp only [List.filter_cons, ih hs.2, if_pos hx]
        simp [hyc]
      · simp only [List.filter_cons, ih hs.2, if_neg hx]

theorem sortCountDesc_filter (l : List (Cell × ℕ)) (c : ℕ) :
    (sortCountDesc l).filter (fun p => p.2 = c) = l.filter (fun p => p.2 = c) := by
  induction l with
  | nil => rfl
  | cons x t ih =>
    rw [show sortCountDesc (x :: t) = insertCountDesc x (sortCountDesc t) from rfl]
    rw [insertCountDesc_filter x (sortCountDesc_sorted t) c]
    by_cases hx : x.2 = c
    · simp [List.filter_cons, hx, ih]
    · simp [List.filter_cons, hx, ih]

theorem countTable_fst (cells : List Cell) :
    (countTable cells).map Prod.fst = firstDedup cells := by
  rw [countTable, List.map_map]
  have hid : (Prod.fst ∘ fun c => (c, List.count c cells)) = id := rfl
  rw [hid, List.map_id]

theorem mem_countTable {cells : List Cell} {p : Cell × ℕ}
    (h : p ∈ countTable cells) : p.2 = List.count p.1 cells := by
  rcases List.mem_map.1 h with ⟨x, _, he⟩
  rw [← he]

theorem forall2_count {nn : List Cell} {vc : List (Cell × ℕ)}
    (h : ∀ p ∈ vc, p.2 = List.count p.1 nn) :
    List.Forall₂ (fun k c => c = List.count k nn) (vc.map Prod.fst) (vc.map Prod.snd) := by
  induction vc with
  | nil => simp
  | cons p t ih =>
    simp only [List.map_cons]
    exact List.Forall₂.cons (h p (by simp)) (ih (fun q hq => h q (by simp [hq])))

theorem valueCounts_eq (cells : List Cell) :
    valueCounts (cells.filter (fun c => !c.isNull)) =
      sortCountDesc (countTable (cells.filter (fun c => !c.isNull))) := by
  rw [valueCounts, filter_idem]

theorem valueCounts_count {nn : List Cell} {p : Cell × ℕ}
    (hp : p ∈ valueCounts (nn.filter (fun c => !c.isNull))) :
    p.2 = List.count p.1 (nn.filter (fun c => !c.isNull)) := by
  rw [valueCounts_eq] at hp
  exact mem_countTable ((sortCountDesc_perm _).mem_iff.1 hp)

/-- C7: for a categorical column, the COUNT statistic is the pair of the
list of distinct category values and the matching list of occurrence
counts, computed after excluding missing values: the value list has no
duplicates and contains exactly the non-missing cells, each count is the
number of occurrences of its value, the counts are in descending order, and
entries with equal counts keep the order of first appearance (the sorted
table restricted to any fixed count equals the first-appearance table so
restricted).  On the column `[a, b, a, c, b, a]` this yields the table
`([a, b, c], [3, 2, 1])`. -/
theorem computeColStats_categorical (cells : List Cell) :
    (computeColStats cells .categorical none =
      .ok [(StatType.COUNT,
        .counts ((valueCounts (cells.filter (fun c => !c.isNull))).map Prod.fst)
          ((valueCounts (cells.filter (fun c => !c.isNull))).map Prod.snd))]) ∧
    ((valueCounts (cells.filter (fun c => !c.isNull))).map Prod.fst).Nodup ∧
    (∀ x : Cell, x ∈ (valueCounts (cells.filter (fun c => !c.isNull))).map Prod.fst ↔
      x ∈ cells.filter (fun c => !c.isNull)) ∧
    List.Forall₂ (fun k c => c = List.count k (cells.filter (fun c => !c.isNull)))
      ((valueCounts (cells.filter (fun c => !c.isNull))).map Prod.fst)
      ((valueCounts (cells.filter (fun c => !c.isNull))).map Prod.snd) ∧
    ((valueCounts (cells.filter (fun c => !c.isNull))).map Prod.snd).Pairwise
      (fun a b => b ≤ a) ∧
    (∀ n : ℕ, (valueCounts (cells.filter (fun c => !c.isNull))).filter
        (fun p => p.2 = n) =
      (countTable (cells.filter (fun c => !c.isNull))).filter (fun p => p.2 = n)) ∧
    computeColStats [Cell.str "a", Cell.str "b", Cell.str "a", Cell.str "c",
        Cell.str "b", Cell.str "a"] .categorical none =
      .ok [(StatType.COUNT,
        .counts [Cell.str "a", Cell.str "b", Cell.str "c"] [3, 2, 1])] := by
  have hperm : (valueCounts (cells.filter (fun c => !c.isNull))).Perm
      (countTable (cells.filter (fun c => !c.isNull))) := by
    rw [valueCounts_eq]
    exact sortCountDesc_perm _
  refine ⟨?_, ?_, ?_, ?_, ?_, ?_, by decide⟩
  · by_cases hall : cells.all Cell.isNull = true
    · have hnn : cells.filter (fun c => !c.isNull) = [] := by
        rw [List.filter_eq_nil_iff]
        intro a ha
        simp [List.all_eq_true.1 hall a ha]
      simp [computeColStats, hall, hnn, statsForStype, defaultValue, valueCounts,
        countTable, firstDedup, sortCountDesc]
    · simp [computeColStats, hall, statsForStype, computeGo, StatType.compute,
        Bind.bind, Except.bind]
  · have := (hperm.map Prod.fst).nodup_iff.2 (countTable_fst _ ▸ firstDedup_nodup _)
    exact this
  · intro x
    rw [(hperm.map Prod.fst).mem_iff, countTable_fst, firstDedup_mem]
  · exact forall2_count (fun p hp => valueCounts_count hp)
  · rw [valueCounts_eq]
    exact (sortCountDesc_sorted _).map Prod.snd (fun a b h => h)
  · intro n
    rw [valueCounts_eq]
    exact sortCountDesc_filter _ n

theorem computeColStats_categorical_witness :
    computeColStats [Cell.str "a", Cell.str "b", Cell.str "a", Cell.str "c",
        Cell.str "b", Cell.str "a"] .categorical none =
      .ok [(StatType.COUNT,
        .counts [Cell.str "a", Cell.str "b", Cell.str "c"] [3, 2, 1])] :=
  (computeColStats_categorical []).2.2.2.2.2.2

/-- C8: for a multicategorical column with at least one non-missing cell,
requesting statistics without a separator fails with the missing-separator
error (the `assert sep is not None` contract); with a separator, every
non-missing cell is split into zero or more tokens by it, the token lists
are flattened with missing entries excluded, and the tokens are
frequency-counted with the same `valueCounts` as the categorical case.  On
the column `[x/y, y, missing]` with separator `/` this yields the table
`([y, x], [2, 1])`. -/
theorem computeColStats_multicategorical (cells : List Cell) :
    ((¬ cells.all Cell.isNull = true) →
      computeColStats cells .multicategorical none = .error .missingSeparator) ∧
    (∀ s : String, (¬ cells.all Cell.isNull = true) →
      computeColStats cells .multicategorical (some s) =
        .ok [(StatType.MULTI_COUNT,
          .counts
            ((valueCounts
              (((cells.filter (fun c => !c.isNull)).map (splitBySep s)).flatten.filter
                (fun c => !c.isNull))).map Prod.fst)
            ((valueCounts
              (((cells.filter (fun c => !c.isNull)).map (splitBySep s)).flatten.filter
                (fun c => !c.isNull))).map Prod.snd))]) ∧
    computeColStats [Cell.str "x/y", Cell.str "y", Cell.sc .nan]
        .multicategorical (some "/") =
      .ok [(StatType.MULTI_COUNT, .counts [Cell.str "y", Cell.str "x"] [2, 1])] := by
  refine ⟨?_, ?_, by decide⟩
  · intro hall
    simp [computeColStats, hall, statsForStype, computeGo, StatType.compute,
      Bind.bind, Except.bind]
  · intro s hall
    simp [computeColStats, hall, statsForStype, computeGo, StatType.compute,
      Bind.bind, Except.bind]

theorem computeColStats_multicategorical_witness :
    computeColStats [Cell.str "x/y"] .multicategorical none =
      .error .missingSeparator ∧
    computeColStats [Cell.str "x/y", Cell.str "y", Cell.sc .nan]
        .multicategorical (some "/") =
      .ok [(StatType.MULTI_COUNT, .counts [Cell.str "y", Cell.str "x"] [2, 1])] :=
  ⟨(computeColStats_multicategorical [Cell.str "x/y"]).1 (by decide),
   (computeColStats_multicategorical []).2.2⟩

theorem rowsAllEq_numRows {d : TensorData} {n : ℕ} (h : d.rowsAllEq n = true)
    (hc : 1 ≤ d.numCols) : d.numRows = n := by
  cases d with
  | dense t => simpa [TensorData.rowsAllEq, TensorData.numRows] using h
  | mnt t => simpa [TensorData.rowsAllEq, TensorData.numRows] using h
  | dict g =>
    cases g with
    | nil => simp [TensorData.numCols] at hc
    | cons p g' =>
      rw [TensorData.rowsAllEq, List.all_eq_true] at h
      have := h p (by simp)
      simpa [TensorData.numRows] using this

theorem mkTF_ok_inv {fd : List (Stype × TensorData)} {cn : List (Stype × List String)}
    {y : Option (List ℚ)} {tf : TensorFrame} (h : mkTF fd cn y = .ok tf) :
    (fd.all (fun p => p.2.rowsAllEq (frameNumRows fd y)) = true) ∧
    (∀ ys ∈ y, ys.length = frameNumRows fd y) ∧
    (fd.all (fun p =>
      match alookup p.1 cn with
      | some ns =>
        decide (ns.length = p.2.numCols) && decide ns.Nodup &&
          decide (1 ≤ p.2.numCols) && p.2.kindMatches p.1 && p.2.shapeOK
      | none => false) = true) := by
  rw [mkTF] at h
  split at h
  · split at h
    · next h2 => next h1 => exact ⟨h1.1, h1.2, h2⟩
    · simp at h
  · simp at h

theorem wf_storage {tf : TensorFrame} {st : Stype} {d : TensorData}
    (hwf : tf.WF) (h : alookup st tf.feat_dict = some d) :
    d.rowsAllEq tf.numRows = true ∧ 1 ≤ d.numCols ∧ d.numRows = tf.numRows := by
  rcases mkTF_ok_inv hwf.2.1 with ⟨hrows, _, hinv⟩
  have h1 := List.all_eq_true.1 hrows (st, d) (alookup_mem h)
  have h2 := List.all_eq_true.1 hinv (st, d) (alookup_mem h)
  rcases hcn : alookup st tf.col_names_dict with _ | ns
  · rw [hcn] at h2
    simp at h2
  · rw [hcn] at h2
    simp only [Bool.and_eq_true, decide_eq_true_eq] at h2
    refine ⟨h1, h2.1.1.2, rowsAllEq_numRows h1 h2.1.1.2⟩

theorem pyDictEq_keys {a b : List (Stype × List String)} (h : pyDictEq a b = true)
    {st : Stype} : st ∈ a.map Prod.fst ↔ st ∈ b.map Prod.fst := by
  unfold pyDictEq at h
  rw [Bool.and_eq_true] at h
  constructor
  · intro hm
    rcases Option.isSome_iff_exists.1 (alookup_isSome_iff.2 hm) with ⟨v, hv⟩
    have := List.all_eq_true.1 h.1 (st, v) (alookup_mem hv)
    simp only [beq_iff_eq] at this
    exact alookup_isSome_iff.1 (by rw [this]; rfl)
  · intro hm
    rcases Option.isSome_iff_exists.1 (alookup_isSome_iff.2 hm) with ⟨v, hv⟩
    have := List.all_eq_true.1 h.2 (st, v) (alookup_mem hv)
    simp only [beq_iff_eq] at this
    exact alookup_isSome_iff.1 (by rw [this]; rfl)

/-- A well-formed frame has a semantic type in its storage exactly when it
has it in its column-name mapping. -/
theorem wf_keys {tf : TensorFrame} (hwf : tf.WF) {st : Stype} :
    st ∈ tf.feat_dict.map Prod.fst ↔ st ∈ tf.col_names_dict.map Prod.fst := by
  constructor
  · intro hm
    rcases List.mem_map.1 hm with ⟨p, hp, he⟩
    exact he ▸ hwf.2.2.2.2.1 p hp
  · intro hm
    rcases List.mem_map.1 hm with ⟨p, hp, he⟩
    exact he ▸ hwf.2.2.2.2.2 p hp

theorem filterMap_rows_sum {tfs : List TensorFrame} {st : Stype}
    (h : ∀ tf ∈ tfs, ∃ d, alookup st tf.feat_dict = some d ∧ d.numRows = tf.numRows) :
    ((tfs.filterMap (fun tf => alookup st tf.feat_dict)).map TensorData.numRows).sum =
      (tfs.map TensorFrame.numRows).sum := by
  induction tfs with
  | nil => rfl
  | cons tf t ih =>
    rcases h tf (by simp) with ⟨d, hd, hdr⟩
    rw [List.filterMap_cons, hd]
    simp only [List.map_cons, List.sum_cons, hdr]
    rw [ih (fun tf' htf' => h tf' (by simp [htf']))]

theorem forall2_mnt_rows {feats : List TensorData} {ms : List MultiNestedTensor}
    (h : List.Forall₂ (fun f m => expectMnt f = .ok m) feats ms) :
    feats.map TensorData.numRows = ms.map (fun m => m.rows.length) := by
  induction h with
  | nil => rfl
  | cons hab htail ih =>
    rename_i f m fs ms2
    cases f <;> simp [expectMnt] at hab
    simp [TensorData.numRows, hab, ih]

theorem forall2_dense_rows {feats : List TensorData} {ts : List Dense}
    (h : List.Forall₂ (fun f t => expectDense f = .ok t) feats ts) :
    feats.map TensorData.numRows = ts.map List.length := by
  induction h with
  | nil => rfl
  | cons hab htail ih =>
    rename_i f t fs ts2
    cases f <;> simp [expectDense] at hab
    simp [TensorData.numRows, hab, ih]

theorem forall2_dict_payload {feats : List TensorData}
    {gs : List (List (String × MultiNestedTensor))}
    (h : List.Forall₂ (fun f g => expectDict f = .ok g) feats gs) :
    feats = gs.map TensorData.dict := by
  induction h with
  | nil => rfl
  | cons hab htail ih =>
    rename_i f g fs gs2
    cases f <;> simp [expectDict] at hab
    simp [hab, ih]

theorem denseCatRows_length {ts : List Dense} {t : Dense}
    (h : denseCatRows ts = .ok t) : t.length = (ts.map List.length).sum := by
  induction ts generalizing t with
  | nil =>
    simp [denseCatRows] at h
    simp [← h]
  | cons a s ih =>
    cases s with
    | nil =>
      simp [denseCatRows] at h
      simp [← h]
    | cons a' s' =>
      rw [denseCatRows, bind_eq_ok_iff] at h
      rcases h with ⟨r, hr, h⟩
      split at h
      · rw [← Except.ok.inj h]
        simp [ih hr]
      · simp at h

theorem mntCatRowsList_length (ts : List MultiNestedTensor) :
    (MultiNestedTensor.catRowsList ts).rows.length =
      (ts.map (fun m => m.rows.length)).sum := by
  rw [MultiNestedTensor.catRowsList]
  simp only [List.length_flatten, List.map_map]
  rfl

theorem mntCat_zero_ok {ts : List MultiNestedTensor} {m : MultiNestedTensor}
    (h : MultiNestedTensor.cat ts 0 = .ok m) : m = MultiNestedTensor.catRowsList ts := by
  rw [MultiNestedTensor.cat] at h
  simp at h
  exact h.symm

theorem forall2_lookup_rows {name : String}
    {gs : List (List (String × MultiNestedTensor))} {ms : List MultiNestedTensor}
    (h : List.Forall₂ (fun d m =>
      (match alookup name d with
       | some t => Except.ok t
       | none => Except.error (CatError.keyError name)) = .ok m) gs ms)
    (huni : ∀ gi ∈ gs, ∀ p ∈ gi, p.2.rows.length = (TensorData.dict gi).numRows) :
    ms.map (fun m => m.rows.length) = gs.map (fun gi => (TensorData.dict gi).numRows) := by
  induction h with
  | nil => rfl
  | cons hab htail ih =>
    rename_i gi m gs2 ms2
    rcases hl : alookup name gi with _ | t <;> rw [hl] at hab
    · simp at hab
    · have hmem := alookup_mem hl
      have := huni gi (by simp) (name, t) hmem
      simp only [List.map_cons]
      rw [← Except.ok.inj hab]
      rw [this, ih (fun gi' hgi' => huni gi' (by simp [hgi']))]

theorem dictCat_rows_sum {g0 : List (String × MultiNestedTensor)}
    {gs' : List (List (String × MultiNestedTensor))}
    {g : List (String × MultiNestedTensor)}
    (h : dictCat (g0 :: gs') 0 = .ok g) (hg0 : g0 ≠ [])
    (huni : ∀ gi ∈ g0 :: gs', ∀ p ∈ gi, p.2.rows.length = (TensorData.dict gi).numRows) :
    (TensorData.dict g).numRows =
      ((g0 :: gs').map (fun gi => (TensorData.dict gi).numRows)).sum := by
  rcases g0 with _ | ⟨p0, g0r⟩
  · exact absurd rfl hg0
  rw [dictCat] at h
  simp only [List.map_cons] at h
  rw [mapExcept, bind_eq_ok_iff] at h
  rcases h with ⟨b, hb, h⟩
  rw [bind_eq_ok_iff] at h
  rcases h with ⟨grest, _, hg⟩
  have hgeq : g = b :: grest := (Except.ok.inj hg).symm
  rw [bind_eq_ok_iff] at hb
  rcases hb with ⟨feats0, hfeats0, hb⟩
  rw [bind_eq_ok_iff] at hb
  rcases hb with ⟨t, ht, hb⟩
  have hbeq : b = (p0.1, t) := (Except.ok.inj hb).symm
  rw [hgeq, hbeq]
  rw [show (TensorData.dict ((p0.1, t) :: grest)).numRows = t.rows.length from rfl]
  rw [mntCat_zero_ok ht, mntCatRowsList_length]
  rw [mapExcept_eq_ok_iff] at hfeats0
  rw [forall2_lookup_rows hfeats0 huni]

theorem catOne_rows_sum {tfs : List TensorFrame} {st : Stype} {d : TensorData}
    (h : catOne tfs st 0 = .ok d)
    (hu : ∀ f ∈ tfs.filterMap (fun tf => alookup st tf.feat_dict),
      f.rowsAllEq f.numRows = true ∧ 1 ≤ f.numCols) :
    d.numRows =
      ((tfs.filterMap (fun tf => alookup st tf.feat_dict)).map TensorData.numRows).sum := by
  rw [catOne] at h
  split at h
  · rw [bind_eq_ok_iff] at h
    rcases h with ⟨ms, hms, h⟩
    rw [bind_eq_ok_iff] at h
    rcases h with ⟨m, hm, h⟩
    rw [← Except.ok.inj h]
    rw [mapExcept_eq_ok_iff] at hms
    rw [show (TensorData.mnt m).numRows = m.rows.length from rfl]
    rw [mntCat_zero_ok hm, mntCatRowsList_length, ← forall2_mnt_rows hms]
  · rw [bind_eq_ok_iff] at h
    rcases h with ⟨gs, hgs, h⟩
    rw [bind_eq_ok_iff] at h
    rcases h with ⟨g, hg, h⟩
    rw [← Except.ok.inj h]
    rw [mapExcept_eq_ok_iff] at hgs
    have hpay := forall2_dict_payload hgs
    cases gs with
    | nil =>
      rw [dictCat] at hg
      rw [hpay]
      rw [← Except.ok.inj hg]
      rfl
    | cons g0 gs' =>
      have hg0mem : TensorData.dict g0 ∈
          tfs.filterMap (fun tf => alookup st tf.feat_dict) := by
        rw [hpay]
        simp
      have hg0 : g0 ≠ [] := by
        intro hnil
        have := (hu _ hg0mem).2
        rw [hnil] at this
        simp [TensorData.numCols] at this
      have huni : ∀ gi ∈ g0 :: gs', ∀ p ∈ gi,
          p.2.rows.length = (TensorData.dict gi).numRows := by
        intro gi hgi p hp
        have hgim : TensorData.dict gi ∈
            tfs.filterMap (fun tf => alookup st tf.feat_dict) := by
          rw [hpay]
          exact List.mem_map_of_mem _ hgi
        have := (hu _ hgim).1
        rw [show (TensorData.dict gi).rowsAllEq ((TensorData.dict gi).numRows) =
            gi.all (fun q => q.2.rows.length = (TensorData.dict gi).numRows)
          from rfl] at this
        have := List.all_eq_true.1 this p hp
        simpa using this
      rw [hpay]
      rw [show ((g0 :: gs').map TensorData.dict).map TensorData.numRows =
          (g0 :: gs').map (fun gi => (TensorData.dict gi).numRows) from by
        rw [List.map_map]; rfl]
      exact dictCat_rows_sum hg hg0 huni
  · rw [bind_eq_ok_iff] at h
    rcases h with ⟨ts, hts, h⟩
    rw [bind_eq_ok_iff] at h
    rcases h with ⟨t, ht, h⟩
    rw [← Except.ok.inj h]
    rw [mapExcept_eq_ok_iff] at hts
    rw [show (TensorData.dense t).numRows = t.length from rfl]
    rw [denseCat] at ht
    rw [if_pos rfl] at ht
    rw [denseCatRows_length ht, ← forall2_dense_rows hts]

theorem catHelperGo_cons_ok {tfs : List TensorFrame} {dim : ℕ} {st : Stype}
    {sts : List Stype} {fd : List (Stype × TensorData)}
    (h : catHelperGo tfs dim (st :: sts) = .ok fd) :
    ∃ d fd', fd = (st, d) :: fd' ∧ catOne tfs st dim = .ok d ∧
      catHelperGo tfs dim sts = .ok fd' := by
  rw [catHelperGo, bind_eq_ok_iff] at h
  rcases h with ⟨d, hd, h⟩
  rw [bind_eq_ok_iff] at h
  rcases h with ⟨fd', hfd', h⟩
  exact ⟨d, fd', (Except.ok.inj h).symm, hd, hfd'⟩

theorem catHelperGo_fst {tfs : List TensorFrame} {dim : ℕ} {sts : List Stype}
    {fd : List (Stype × TensorData)}
    (h : catHelperGo tfs dim sts = .ok fd) : fd.map Prod.fst = sts := by
  induction sts generalizing fd with
  | nil =>
    rw [catHelperGo] at h
    rw [← Except.ok.inj h]
    rfl
  | cons st sts ih =>
    rcases catHelperGo_cons_ok h with ⟨d, fd', he, _, hrest⟩
    rw [he]
    simp [ih hrest]

theorem catHelperGo_mem {tfs : List TensorFrame} {dim : ℕ} {sts : List Stype}
    {fd : List (Stype × TensorData)}
    (h : catHelperGo tfs dim sts = .ok fd) :
    ∀ p ∈ fd, catOne tfs p.1 dim = .ok p.2 := by
  induction sts generalizing fd with
  | nil =>
    rw [catHelperGo] at h
    rw [← Except.ok.inj h]
    simp
  | cons st sts ih =>
    rcases catHelperGo_cons_ok h with ⟨d, fd', he, hone, hrest⟩
    intro p hp
    rw [he] at hp
    rcases List.mem_cons.1 hp with hpe | hpm
    · rw [hpe]
      exact hone
    · exact ih hrest p hpm

theorem allStypes_head {tf0 : TensorFrame} {rest : List TensorFrame} {st0 : Stype}
    {d0 : TensorData} {t : List (Stype × TensorData)}
    (h : tf0.feat_dict = (st0, d0) :: t) :
    ∃ l, allStypes (tf0 :: rest) = st0 :: l := by
  rw [allStypes]
  rw [show (tf0 :: rest).flatMap (fun tf => tf.feat_dict.map Prod.fst) =
      tf0.feat_dict.map Prod.fst ++ rest.flatMap (fun tf => tf.feat_dict.map Prod.fst)
    from rfl]
  rw [h]
  exact ⟨_, rfl⟩

theorem allStypes_mem {tfs : List TensorFrame} {st : Stype} :
    st ∈ allStypes tfs ↔ ∃ tf ∈ tfs, st ∈ tf.feat_dict.map Prod.fst := by
  rw [allStypes, firstDedup_mem]
  constructor
  · intro h
    simpa using h
  · intro h
    simpa using h

/-- C6: a successful row concatenation of well-formed frames has row count
equal to the sum of the input row counts, target equal to the input-order
concatenation of the input targets whenever the first input carries one
(success forces all of them to), column names inherited unchanged from the
first input, and exactly the first input's semantic types present in its
storage. -/
theorem catRow_success (tf0 : TensorFrame) (rest : List TensorFrame) (out : TensorFrame)
    (hwf : ∀ tf ∈ tf0 :: rest, tf.WF)
    (h : catRow (tf0 :: rest) = .ok out) :
    out.numRows = ((tf0 :: rest).map TensorFrame.numRows).sum ∧
    (tf0.y.isSome = true →
      out.y = some (((tf0 :: rest).filterMap TensorFrame.y).flatten)) ∧
    out.col_names_dict = tf0.col_names_dict ∧
    (∀ st : Stype, (alookup st out.feat_dict).isSome ↔
      (alookup st tf0.feat_dict).isSome) := by
  rw [catRow] at h
  split at h
  case isFalse => simp at h
  case isTrue hsch =>
  split at h
  case isFalse => simp at h
  case isTrue hy =>
  rw [bind_eq_ok_iff] at h
  rcases h with ⟨fd, hfd, hmk⟩
  have hout := mkTF_ok hmk
  have key_iff : ∀ tf ∈ tf0 :: rest,
      ∀ st : Stype, st ∈ tf.feat_dict.map Prod.fst ↔ st ∈ tf0.feat_dict.map Prod.fst := by
    intro tf htf st
    rcases List.mem_cons.1 htf with he | hm
    · rw [he]
    · have hpd := List.all_eq_true.1 hsch tf hm
      rw [wf_keys (hwf tf htf), pyDictEq_keys hpd, ← wf_keys (hwf tf0 (by simp))]
  have hfst : fd.map Prod.fst = allStypes (tf0 :: rest) := by
    rw [catHelper] at hfd
    exact catHelperGo_fst hfd
  refine ⟨?_, ?_, ?_, ?_⟩
  · rcases hfd0 : tf0.feat_dict with _ | ⟨⟨st0, dd0⟩, t0⟩
    · exact absurd hfd0 (hwf tf0 (by simp)).1
    rcases @allStypes_head tf0 rest _ _ _ hfd0 with ⟨l, hl⟩
    rw [catHelper, hl] at hfd
    rcases catHelperGo_cons_ok hfd with ⟨dcat, fd', hfde, hone, _⟩
    have hnum : out.numRows = dcat.numRows := by
      rw [hout, hfde]
      rfl
    rw [hnum]
    have hu : ∀ f ∈ (tf0 :: rest).filterMap (fun tf => alookup st0 tf.feat_dict),
        f.rowsAllEq f.numRows = true ∧ 1 ≤ f.numCols := by
      intro f hf
      rcases List.mem_filterMap.1 hf with ⟨tf, htf, hlk⟩
      rcases wf_storage (hwf tf htf) hlk with ⟨hra, hc, hnr⟩
      exact ⟨hnr.symm ▸ hra, hc⟩
    rw [catOne_rows_sum hone hu]
    refine filterMap_rows_sum ?_
    intro tf htf
    have hst0 : st0 ∈ tf.feat_dict.map Prod.fst := by
      rw [key_iff tf htf st0, hfd0]
      simp
    rcases Option.isSome_iff_exists.1 (alookup_isSome_iff.2 hst0) with ⟨d', hd'⟩
    exact ⟨d', hd', (wf_storage (hwf tf htf) hd').2.2⟩
  · intro hys
    rw [hout]
    simp only [if_pos hys]
  · rw [hout]
  · intro st
    rw [hout]
    rw [show (⟨fd, tf0.col_names_dict,
        if tf0.y.isSome = true
        then some (((tf0 :: rest).filterMap TensorFrame.y).flatten)
        else none⟩ : TensorFrame).feat_dict = fd from rfl]
    rw [alookup_isSome_iff, alookup_isSome_iff, hfst, allStypes_mem]
    constructor
    · rintro ⟨tf, htf, hst⟩
      exact (key_iff tf htf st).1 hst
    · intro hst
      exact ⟨tf0, by simp, hst⟩

theorem catRow_success_witness :
    TensorFrame.numRows
        ⟨[(Stype.numerical, .dense [[1, 2], [3, 4], [5, 6], [7, 8]])],
          [(Stype.numerical, ["n1", "n2"])], none⟩ =
      (([frN, frN2] : List TensorFrame).map TensorFrame.numRows).sum ∧
    TensorFrame.col_names_dict
        ⟨[(Stype.numerical, .dense [[1, 2], [3, 4], [5, 6], [7, 8]])],
          [(Stype.numerical, ["n1", "n2"])], none⟩ = frN.col_names_dict := by
  have h := catRow_success frN [frN2]
      ⟨[(Stype.numerical, .dense [[1, 2], [3, 4], [5, 6], [7, 8]])],
        [(Stype.numerical, ["n1", "n2"])], none⟩ (by decide) (by decide)
  exact ⟨h.1, h.2.2.1⟩

theorem wf_kindMatches {tf : TensorFrame} {st : Stype} {d : TensorData}
    (hwf : tf.WF) (h : alookup st tf.feat_dict = some d) :
    d.kindMatches st = true := by
  rcases mkTF_ok_inv hwf.2.1 with ⟨_, _, hinv⟩
  have h2 := List.all_eq_true.1 hinv (st, d) (alookup_mem h)
  rcases hcn : alookup st tf.col_names_dict with _ | ns
  · rw [hcn] at h2
    simp at h2
  · rw [hcn] at h2
    simp only [Bool.and_eq_true] at h2
    exact h2.1.2

theorem denseCatCols_rows {ts : List Dense} {t : Dense}
    (h : denseCatCols ts = .ok t) : ∀ s ∈ ts, s.length = t.length := by
  induction ts generalizing t with
  | nil => simp
  | cons a s ih =>
    cases s with
    | nil =>
      simp [denseCatCols] at h
      simp [← h]
    | cons a' s' =>
      rw [denseCatCols, bind_eq_ok_iff] at h
      rcases h with ⟨r, hr, h⟩
      split at h
      · next hc =>
        rw [← Except.ok.inj h]
        intro x hx
        rcases List.mem_cons.1 hx with he | hm
        · rw [he, List.length_zipWith]
          omega
        · rw [ih hr x hm, List.length_zipWith]
          omega
      · simp at h

theorem mntCatCols_rows {ts : List MultiNestedTensor} {t : MultiNestedTensor}
    (h : MultiNestedTensor.catColsList ts = .ok t) :
    ∀ s ∈ ts, s.rows.length = t.rows.length := by
  induction ts generalizing t with
  | nil => simp
  | cons a s ih =>
    cases s with
    | nil =>
      simp [MultiNestedTensor.catColsList] at h
      simp [← h]
    | cons a' s' =>
      rw [MultiNestedTensor.catColsList, bind_eq_ok_iff] at h
      rcases h with ⟨r, hr, h⟩
      split at h
      · next hc =>
        rw [← Except.ok.inj h]
        intro x hx
        rcases List.mem_cons.1 hx with he | hm
        · rw [he]
          simp only [List.length_zipWith]
          omega
        · rw [ih hr x hm]
          simp only [List.length_zipWith]
          omega
      · simp at h

theorem mntCat_one {ts : List MultiNestedTensor} :
    MultiNestedTensor.cat ts 1 = MultiNestedTensor.catColsList ts := by
  rw [MultiNestedTensor.cat, if_neg (by omega)]

theorem map_dict_payload (gs : List (List (String × MultiNestedTensor))) :
    (gs.map TensorData.dict).filterMap
      (fun d => match d with | .dict g => some g | _ => none) = gs := by
  induction gs with
  | nil => rfl
  | cons g gs' ih => simp [ih]

theorem dictCat_cons_ok_head {p0 : String × MultiNestedTensor}
    {g0r : List (String × MultiNestedTensor)}
    {gs' : List (List (String × MultiNestedTensor))} {dim : ℕ}
    {g : List (String × MultiNestedTensor)}
    (h : dictCat ((p0 :: g0r) :: gs') dim = .ok g) :
    ∃ t0 grest feats0, g = (p0.1, t0) :: grest ∧
      mapExcept (fun d =>
        match alookup p0.1 d with
        | some t => Except.ok t
        | none => Except.error (CatError.keyError p0.1)) ((p0 :: g0r) :: gs') =
          .ok feats0 ∧
      MultiNestedTensor.cat feats0 dim = .ok t0 := by
  rw [dictCat] at h
  simp only [List.map_cons] at h
  rw [mapExcept, bind_eq_ok_iff] at h
  rcases h with ⟨b, hb, h⟩
  rw [bind_eq_ok_iff] at h
  rcases h with ⟨grest, _, hg⟩
  rw [bind_eq_ok_iff] at hb
  rcases hb with ⟨feats0, hfeats0, hb⟩
  rw [bind_eq_ok_iff] at hb
  rcases hb with ⟨t, ht, hb⟩
  exact ⟨t, grest, feats0,
    by rw [← Except.ok.inj hg, ← Except.ok.inj hb], hfeats0, ht⟩

theorem dictCat_aligned_error {gs : List (List (String × MultiNestedTensor))}
    {dim : ℕ} {e : CatError} (h : dictCat gs dim = .error e)
    (hdk : dictKeysAligned gs) : e = .rowCountMismatch := by
  rcases gs with _ | ⟨g0, gs'⟩
  · simp [dictCat] at h
  · rw [dictCat] at h
    rcases mapExcept_eq_error h with ⟨name, hname, hF⟩
    have hname' : name ∈ g0.map Prod.fst := hname
    rw [bind_eq_error_iff] at hF
    rcases hF with hF | ⟨feats, _, hF⟩
    · rcases mapExcept_eq_error hF with ⟨d, hd, hlk⟩
      rcases hl : alookup name d with _ | t <;> rw [hl] at hlk
      · exfalso
        have := hdk name hname' d hd
        rw [hl] at this
        simp at this
      · simp at hlk
    · rw [bind_eq_error_iff] at hF
      rcases hF with hF | ⟨t, _, hF⟩
      · exact mntCat_error hF
      · simp at hF

theorem catOne_dim1_error {tfs : List TensorFrame} {st : Stype} {e : CatError}
    (h : catOne tfs st 1 = .error e)
    (hkind : ∀ f ∈ tfs.filterMap (fun tf => alookup st tf.feat_dict),
      f.kindMatches st = true)
    (hdk : dictKeysAligned (dictPayloads tfs st)) : e = .rowCountMismatch := by
  rw [catOne] at h
  split at h
  · next heq =>
    rw [bind_eq_error_iff] at h
    rcases h with h | ⟨ms, _, h⟩
    · rcases mapExcept_eq_error h with ⟨f, hf, hef⟩
      cases f with
      | mnt t => simp [expectMnt] at hef
      | dense t =>
        have := hkind _ hf
        rw [TensorData.kindMatches, heq] at this
        simp at this
      | dict g =>
        have := hkind _ hf
        rw [TensorData.kindMatches, heq] at this
        simp at this
    · rw [bind_eq_error_iff] at h
      rcases h with h | ⟨m, _, h⟩
      · exact mntCat_error h
      · simp at h
  · next heq =>
    rw [bind_eq_error_iff] at h
    rcases h with h | ⟨gs, hgs, h⟩
    · rcases mapExcept_eq_error h with ⟨f, hf, hef⟩
      cases f with
      | dict g => simp [expectDict] at hef
      | dense t =>
        have := hkind _ hf
        rw [TensorData.kindMatches, heq] at this
        simp at this
      | mnt t =>
        have := hkind _ hf
        rw [TensorData.kindMatches, heq] at this
        simp at this
    · rw [bind_eq_error_iff] at h
      rcases h with h | ⟨g, _, h⟩
      · refine dictCat_aligned_error h ?_
        rw [mapExcept_eq_ok_iff] at hgs
        have hpay := forall2_dict_payload hgs
        have : dictPayloads tfs st = gs := by
          rw [dictPayloads, hpay, map_dict_payload]
        rw [← this]
        exact hdk
      · simp at h
  · next heq =>
    rw [bind_eq_error_iff] at h
    rcases h with h | ⟨ts, _, h⟩
    · rcases mapExcept_eq_error h with ⟨f, hf, hef⟩
      cases f with
      | dense t => simp [expectDense] at hef
      | mnt t =>
        have := hkind _ hf
        rw [TensorData.kindMatches, heq] at this
        simp at this
      | dict g =>
        have := hkind _ hf
        rw [TensorData.kindMatches, heq] at this
        simp at this
    · rw [bind_eq_error_iff] at h
      rcases h with h | ⟨t, _, h⟩
      · rw [denseCat, if_neg (by omega)] at h
        exact denseCatCols_error h
      · simp at h

theorem catHelperGo_dim1_error {tfs : List TensorFrame} {sts : List Stype}
    {e : CatError} (h : catHelperGo tfs 1 sts = .error e)
    (hkind : ∀ st ∈ sts, ∀ f ∈ tfs.filterMap (fun tf => alookup st tf.feat_dict),
      f.kindMatches st = true)
    (hdk : ∀ st ∈ sts, dictKeysAligned (dictPayloads tfs st)) :
    e = .rowCountMismatch := by
  induction sts with
  | nil => simp [catHelperGo] at h
  | cons st sts ih =>
    rw [catHelperGo, bind_eq_error_iff] at h
    rcases h with h | ⟨d, _, h⟩
    · exact catOne_dim1_error h (hkind st (by simp)) (hdk st (by simp))
    · rw [bind_eq_error_iff] at h
      rcases h with h | ⟨rest, _, h⟩
      · exact ih h (fun st' hst' => hkind st' (by simp [hst']))
          (fun st' hst' => hdk st' (by simp [hst']))
      · simp at h

theorem catOne_dim1_rows {tfs : List TensorFrame} {st : Stype} {d : TensorData} {n : ℕ}
    (h : catOne tfs st 1 = .ok d)
    (hu : ∀ f ∈ tfs.filterMap (fun tf => alookup st tf.feat_dict),
      f.rowsAllEq f.numRows = true ∧ 1 ≤ f.numCols)
    (hra : d.rowsAllEq n = true) :
    ∀ f ∈ tfs.filterMap (fun tf => alookup st tf.feat_dict), f.numRows = n := by
  rw [catOne] at h
  split at h
  · rw [bind_eq_ok_iff] at h
    rcases h with ⟨ms, hms, h⟩
    rw [bind_eq_ok_iff] at h
    rcases h with ⟨m, hm, h⟩
    have hde : TensorData.mnt m = d := Except.ok.inj h
    rw [← hde] at hra
    have hmn : m.rows.length = n := by
      simpa [TensorData.rowsAllEq] using hra
    rw [mntCat_one] at hm
    rw [mapExcept_eq_ok_iff] at hms
    intro f hf
    rcases forall2_exists hms f hf with ⟨mi, hmi, hab⟩
    cases f <;> simp [expectMnt] at hab
    rename_i mt
    rw [show (TensorData.mnt mt).numRows = mt.rows.length from rfl, hab]
    rw [mntCatCols_rows hm mi hmi, hmn]
  · rw [bind_eq_ok_iff] at h
    rcases h with ⟨gs, hgs, h⟩
    rw [bind_eq_ok_iff] at h
    rcases h with ⟨g, hg, h⟩
    have hde : TensorData.dict g = d := Except.ok.inj h
    rw [← hde] at hra
    rw [mapExcept_eq_ok_iff] at hgs
    have hpay := forall2_dict_payload hgs
    intro f hf
    cases gs with
    | nil =>
      rw [hpay] at hf
      simp at hf
    | cons g0 gs' =>
      have hg0ne : g0 ≠ [] := by
        intro hnil
        have hmem : TensorData.dict g0 ∈
            tfs.filterMap (fun tf => alookup st tf.feat_dict) := by
          rw [hpay]
          simp
        have := (hu _ hmem).2
        rw [hnil] at this
        simp [TensorData.numCols] at this
      rcases g0 with _ | ⟨p0, g0r⟩
      · exact absurd rfl hg0ne
      rcases dictCat_cons_ok_head hg with ⟨t0, grest, feats0, hge, hfeats0, ht0⟩
      have ht0n : t0.rows.length = n := by
        rw [hge] at hra
        rw [show (TensorData.dict ((p0.1, t0) :: grest)).rowsAllEq n =
            ((p0.1, t0) :: grest).all (fun p => p.2.rows.length = n) from rfl] at hra
        have := List.all_eq_true.1 hra (p0.1, t0) (by simp)
        simpa using this
      rw [mntCat_one] at ht0
      rw [mapExcept_eq_ok_iff] at hfeats0
      have hfm : f ∈ ((p0 :: g0r) :: gs').map TensorData.dict := by
        rw [← hpay]
        exact hf
      rcases List.mem_map.1 hfm with ⟨gi, hgi, hgie⟩
      rcases forall2_exists hfeats0 gi hgi with ⟨mi, hmi, hab⟩
      rcases hl : alookup p0.1 gi with _ | mt <;> rw [hl] at hab
      · simp at hab
      · have hmember := alookup_mem hl
        have hmtmi : mt = mi := Except.ok.inj hab
        have hmirows : mi.rows.length = n := by
          rw [mntCatCols_rows ht0 mi hmi, ht0n]
        have huni := (hu f hf).1
        rw [← hgie] at huni ⊢
        rw [show (TensorData.dict gi).rowsAllEq ((TensorData.dict gi).numRows) =
            gi.all (fun q => q.2.rows.length = (TensorData.dict gi).numRows)
          from rfl] at huni
        have := List.all_eq_true.1 huni (p0.1, mt) hmember
        simp only [decide_eq_true_eq] at this
        rw [← this, hmtmi, hmirows]
  · rw [bind_eq_ok_iff] at h
    rcases h with ⟨ts, hts, h⟩
    rw [bind_eq_ok_iff] at h
    rcases h with ⟨t, ht, h⟩
    have hde : TensorData.dense t = d := Except.ok.inj h
    rw [← hde] at hra
    have htn : t.length = n := by
      simpa [TensorData.rowsAllEq] using hra
    rw [denseCat, if_neg (by omega)] at ht
    rw [mapExcept_eq_ok_iff] at hts
    intro f hf
    rcases forall2_exists hts f hf with ⟨ti, hti, hab⟩
    cases f <;> simp [expectDense] at hab
    rename_i td
    rw [show (TensorData.dense td).numRows = td.length from rfl, hab]
    rw [denseCatCols_rows ht ti hti, htn]

theorem catHelper_rows_eq {tfs : List TensorFrame} {fd : List (Stype × TensorData)}
    {n : ℕ} (hwf : ∀ tf ∈ tfs, tf.WF) (hh : catHelper tfs 1 = .ok fd)
    (hall : fd.all (fun p => p.2.rowsAllEq n) = true) :
    ∀ a ∈ tfs, a.numRows = n := by
  intro a ha
  rcases hne : a.feat_dict with _ | ⟨⟨sa, da⟩, t⟩
  · exact absurd hne (hwf a ha).1
  have hsa_all : sa ∈ allStypes tfs := allStypes_mem.2 ⟨a, ha, by simp [hne]⟩
  rw [catHelper] at hh
  have hsa_fd : sa ∈ fd.map Prod.fst := by
    rw [catHelperGo_fst hh]
    exact hsa_all
  rcases List.mem_map.1 hsa_fd with ⟨p, hp, hpe⟩
  have hone := catHelperGo_mem hh p hp
  rw [hpe] at hone
  have hra := List.all_eq_true.1 hall p hp
  have hu : ∀ f ∈ tfs.filterMap (fun tf => alookup sa tf.feat_dict),
      f.rowsAllEq f.numRows = true ∧ 1 ≤ f.numCols := by
    intro f hf
    rcases List.mem_filterMap.1 hf with ⟨tf, htf, hlk⟩
    rcases wf_storage (hwf tf htf) hlk with ⟨h1, h2, h3⟩
    exact ⟨h3.symm ▸ h1, h2⟩
  have hlka : alookup sa a.feat_dict = some da := by
    rw [hne]
    simp [alookup]
  have hmem : da ∈ tfs.filterMap (fun tf => alookup sa tf.feat_dict) :=
    List.mem_filterMap.2 ⟨a, ha, hlka⟩
  have hdan := catOne_dim1_rows hone hu hra da hmem
  rw [← (wf_storage (hwf a ha) hlka).2.2, hdan]

theorem catColAfterY_ok_mk {tfs : List TensorFrame} {y : Option (List ℚ)}
    {tf' : TensorFrame} (h : catColAfterY tfs y = .ok tf') :
    ∃ fd, catHelper tfs 1 = .ok fd ∧ mkTF fd (mergeColNames tfs) y = .ok tf' := by
  rw [catColAfterY] at h
  split at h
  · simp at h
  · rw [bind_eq_ok_iff] at h
    exact h

/-- C1: a successful column concatenation of well-formed frames is possible
only when all inputs share the same row count; and when the inputs do not
all share one row count, while the other eagerly-checked preconditions hold
(at most one target, no duplicate merged column names, aligned named-group
member names), the operation fails with the row-count-mismatch error. -/
theorem catCol_rowCount (tfs : List TensorFrame) (hwf : ∀ tf ∈ tfs, tf.WF) :
    (∀ out, catCol tfs = .ok out → ∀ a ∈ tfs, ∀ b ∈ tfs, a.numRows = b.numRows) ∧
    ((tfs.filterMap TensorFrame.y).length ≤ 1 →
      findDup (mergeColNames tfs) = none →
      dictCompat tfs →
      (¬ ∀ a ∈ tfs, ∀ b ∈ tfs, a.numRows = b.numRows) →
      catCol tfs = .error .rowCountMismatch) := by
  constructor
  · intro out hok a ha b hb
    have key : ∀ y', catColAfterY tfs y' = .ok out →
        ∀ c ∈ tfs, c.numRows = frameNumRows out.feat_dict out.y := by
      intro y' h c hc
      rcases catColAfterY_ok_mk h with ⟨fd, hfd, hmk⟩
      have hinv := mkTF_ok_inv hmk
      have hfde := mkTF_ok hmk
      rw [hfde]
      exact catHelper_rows_eq hwf hfd hinv.1 c hc
    rw [catCol] at hok
    rcases hys : tfs.filterMap TensorFrame.y with _ | ⟨y0, _ | ⟨y1, ys⟩⟩ <;>
      rw [hys] at hok
    · rw [key none hok a ha, key none hok b hb]
    · rw [key (some y0) hok a ha, key (some y0) hok b hb]
    · simp at hok
  · intro hy hdup hdc hne
    have key : ∀ y', catColAfterY tfs y' = .error .rowCountMismatch := by
      intro y'
      rw [catColAfterY, hdup]
      rcases hch : catHelper tfs 1 with e | fd
      · have he : e = .rowCountMismatch := by
          rw [catHelper] at hch
          refine catHelperGo_dim1_error hch ?_ ?_
          · intro st _ f hf
            rcases List.mem_filterMap.1 hf with ⟨tf, htf, hlk⟩
            exact wf_kindMatches (hwf tf htf) hlk
          · intro st hst
            exact hdc st hst
        show Except.error e = Except.error CatError.rowCountMismatch
        rw [he]
      · show mkTF fd (mergeColNames tfs) y' = Except.error CatError.rowCountMismatch
        have hcond : ¬ ((fd.all (fun p =>
            p.2.rowsAllEq (frameNumRows fd y')) = true) ∧
            (∀ ys ∈ y', ys.length = frameNumRows fd y')) := by
          rintro ⟨h1, _⟩
          refine hne (fun a ha b hb => ?_)
          rw [catHelper_rows_eq hwf hch h1 a ha, catHelper_rows_eq hwf hch h1 b hb]
        rw [mkTF]
        rw [if_neg hcond]
    rw [catCol]
    rcases hys : tfs.filterMap TensorFrame.y with _ | ⟨y0, _ | ⟨y1, ys⟩⟩
    · exact key none
    · exact key (some y0)
    · rw [hys] at hy
      simp at hy

theorem catCol_rowCount_witness :
    catCol [frN, frC1] = .error .rowCountMismatch :=
  (catCol_rowCount [frN, frC1] (by decide)).2 (by decide) (by decide)
    (by decide) (by decide)

theorem insertAsc_perm (x : ℚ) (s : List ℚ) : (insertAsc x s).Perm (x :: s) := by
  induction s with
  | nil => rfl
  | cons y ys ih =>
    rw [insertAsc]
    by_cases hc : x ≤ y
    · rw [if_pos hc]
    · rw [if_neg hc]
      exact (ih.cons y).trans (List.Perm.swap x y ys)

theorem sortAsc_perm (l : List ℚ) : (sortAsc l).Perm l := by
  induction l with
  | nil => rfl
  | cons x t ih =>
    rw [sortAsc, List.foldr_cons]
    exact (insertAsc_perm x _).trans (ih.cons x)

theorem sortAsc_length (l : List ℚ) : (sortAsc l).length = l.length :=
  (sortAsc_perm l).length_eq

theorem insertAsc_sorted (x : ℚ) {s : List ℚ} (hs : s.Pairwise (· ≤ ·)) :
    (insertAsc x s).Pairwise (· ≤ ·) := by
  induction s with
  | nil => simp [insertAsc]
  | cons y ys ih =>
    rw [insertAsc]
    rw [List.pairwise_cons] at hs
    by_cases hc : x ≤ y
    · rw [if_pos hc]
      rw [List.pairwise_cons]
      refine ⟨?_, List.pairwise_cons.2 hs⟩
      intro z hz
      rcases List.mem_cons.1 hz with he | hm
      · exact he ▸ hc
      · exact le_trans hc (hs.1 z hm)
    · rw [if_neg hc]
      rw [List.pairwise_cons]
      refine ⟨?_, ih hs.2⟩
      intro z hz
      rcases List.mem_cons.1 ((insertAsc_perm x ys).mem_iff.1 hz) with he | hm
      · rw [he]
        linarith
      · exact hs.1 z hm

theorem sortAsc_sorted (l : List ℚ) : (sortAsc l).Pairwise (· ≤ ·) := by
  induction l with
  | nil => simp [sortAsc]
  | cons x t ih =>
    rw [sortAsc, List.foldr_cons]
    exact insertAsc_sorted x ih

theorem specMin_cons (x y : ℚ) (ys : List ℚ) :
    specMin (x :: y :: ys) = min x (specMin (y :: ys)) := rfl

theorem specMax_cons (x y : ℚ) (ys : List ℚ) :
    specMax (x :: y :: ys) = max x (specMax (y :: ys)) := rfl

theorem insertAsc_ne_nil (x : ℚ) (s : List ℚ) : insertAsc x s ≠ [] := by
  cases s with
  | nil => simp [insertAsc]
  | cons y ys =>
    rw [insertAsc]
    split <;> simp

theorem sortAsc_ne_nil {l : List ℚ} (hl : l ≠ []) : sortAsc l ≠ [] := by
  cases l with
  | nil => exact absurd rfl hl
  | cons x t =>
    rw [sortAsc, List.foldr_cons]
    exact insertAsc_ne_nil x _

theorem insertAsc_head (x : ℚ) (s : List ℚ) :
    (insertAsc x s).getD 0 0 = if s = [] then x else min x (s.getD 0 0) := by
  cases s with
  | nil => simp [insertAsc]
  | cons y ys =>
    rw [insertAsc]
    by_cases hc : x ≤ y
    · rw [if_pos hc]
      simp [min_eq_left hc]
    · rw [if_neg hc]
      simp [min_eq_right (le_of_not_le hc)]

theorem sortAsc_head {l : List ℚ} (hl : l ≠ []) :
    (sortAsc l).getD 0 0 = specMin l := by
  induction l with
  | nil => exact absurd rfl hl
  | cons x t ih =>
    rw [sortAsc, List.foldr_cons]
    rw [show List.foldr insertAsc [] t = sortAsc t from rfl]
    rw [insertAsc_head]
    cases t with
    | nil =>
      rw [if_pos (show sortAsc ([] : List ℚ) = [] from rfl)]
      rfl
    | cons y ys =>
      rw [if_neg (sortAsc_ne_nil (by simp))]
      rw [ih (by simp), specMin_cons]

theorem sorted_le_getLast {y : ℚ} {ys : List ℚ} (hs : (y :: ys).Pairwise (· ≤ ·))
    {a : ℚ} (ha : (y :: ys).getLast? = some a) : y ≤ a := by
  induction ys generalizing y with
  | nil =>
    simp at ha
    rw [ha]
  | cons z zs ih =>
    rw [List.getLast?_cons_cons] at ha
    rw [List.pairwise_cons] at hs
    refine le_trans (hs.1 z (by simp)) (ih hs.2 ha)

theorem insertAsc_getLast (x : ℚ) {s : List ℚ} (hs : s.Pairwise (· ≤ ·)) :
    (insertAsc x s).getLast? = some (max x ((s.getLast?).getD x)) := by
  induction s with
  | nil => simp [insertAsc]
  | cons y ys ih =>
    rw [insertAsc]
    rw [List.pairwise_cons] at hs
    by_cases hc : x ≤ y
    · rw [if_pos hc]
      rw [List.getLast?_cons_cons]
      rcases hL : (y :: ys).getLast? with _ | L
      · simp at hL
      · have hyL : y ≤ L := sorted_le_getLast (List.pairwise_cons.2 hs) hL
        simp [max_eq_right (le_trans hc hyL)]
    · rw [if_neg hc]
      cases ys with
      | nil =>
        rw [show insertAsc x [] = [x] from rfl]
        simp [max_eq_left (le_of_not_le hc)]
      | cons z zs =>
        have hne := insertAsc_ne_nil x (z :: zs)
        rcases hI : insertAsc x (z :: zs) with _ | ⟨w, ws⟩
        · exact absurd hI hne
        · rw [List.getLast?_cons_cons]
          rw [← hI]
          rw [ih hs.2]
          rw [List.getLast?_cons_cons]

theorem sortAsc_getLast {l : List ℚ} (hl : l ≠ []) :
    (sortAsc l).getLast? = some (specMax l) := by
  induction l with
  | nil => exact absurd rfl hl
  | cons x t ih =>
    rw [sortAsc, List.foldr_cons]
    rw [show List.foldr insertAsc [] t = sortAsc t from rfl]
    rw [insertAsc_getLast x (sortAsc_sorted t)]
    cases t with
    | nil => simp [sortAsc, specMax]
    | cons y ys =>
      rw [ih (by simp), specMax_cons]
      simp

theorem npQuantile_eval (l : List ℚ) (q : ℚ) :
    npQuantile l q =
      (sortAsc l).getD (Int.floor (q * (((sortAsc l).length : ℚ) - 1))).toNat 0 +
      (q * (((sortAsc l).length : ℚ) - 1) -
        ((Int.floor (q * (((sortAsc l).length : ℚ) - 1))).toNat : ℚ)) *
      ((sortAsc l).getD
          (min ((Int.floor (q * (((sortAsc l).length : ℚ) - 1))).toNat + 1)
            ((sortAsc l).length - 1)) 0 -
        (sortAsc l).getD (Int.floor (q * (((sortAsc l).length : ℚ) - 1))).toNat 0) := rfl

theorem npQuantile_zero {l : List ℚ} (hl : l ≠ []) : npQuantile l 0 = specMin l := by
  rw [npQuantile_eval]
  have h1 : (0 : ℚ) * (((sortAsc l).length : ℚ) - 1) = 0 := by ring
  rw [h1]
  norm_num
  rw [← List.getD_eq_getElem?_getD]
  exact sortAsc_head hl

theorem getD_last {s : List ℚ} (_hs : s ≠ []) :
    s.getD (s.length - 1) 0 = (s.getLast?).getD 0 := by
  rw [List.getD_eq_getElem?_getD, List.getLast?_eq_getElem?]

theorem npQuantile_one {l : List ℚ} (hl : l ≠ []) : npQuantile l 1 = specMax l := by
  rw [npQuantile_eval]
  have hn : 1 ≤ (sortAsc l).length := by
    rw [sortAsc_length]
    exact List.length_pos.2 hl
  have h1 : (1 : ℚ) * (((sortAsc l).length : ℚ) - 1) =
      (((sortAsc l).length - 1 : ℕ) : ℚ) := by
    push_cast [hn]
    ring
  rw [h1, Int.floor_natCast, Int.toNat_ofNat]
  rw [min_eq_right (by omega)]
  rw [getD_last (sortAsc_ne_nil hl), sortAsc_getLast hl]
  simp

theorem sum_sq_dev (μ : ℚ) (l : List ℚ) :
    (l.map (fun x => (x - μ) ^ 2)).sum =
      (l.map (fun x => x ^ 2)).sum - 2 * μ * l.sum + (l.length : ℚ) * μ ^ 2 := by
  induction l with
  | nil => simp
  | cons x t ih =>
    simp only [List.map_cons, List.sum_cons, List.length_cons]
    rw [ih]
    push_cast
    ring

theorem npVarPop_eq_specVariance {l : List ℚ} (hl : l ≠ []) :
    npVarPop l = specVariance l := by
  have hn : ((l.length : ℚ)) ≠ 0 := by
    have := List.length_pos.2 hl
    exact_mod_cast Nat.pos_iff_ne_zero.1 this
  rw [npVarPop, sum_sq_dev, npMean, specVariance, specMean]
  field_simp
  ring

theorem npQuantile_half {l : List ℚ} (hl : l ≠ []) :
    npQuantile l (1/2) = specMedian l := by
  rw [npQuantile_eval, specMedian]
  have hlen : (sortAsc l).length = l.length := sortAsc_length l
  have hn1 : 1 ≤ (sortAsc l).length := by
    rw [hlen]
    exact List.length_pos.2 hl
  rcases Nat.even_or_odd (sortAsc l).length with ⟨m, hm⟩ | ⟨m, hm⟩
  · -- even length: 2 * m with 1 ≤ m
    have hm2 : (sortAsc l).length = 2 * m := by omega
    have hmp : 1 ≤ m := by omega
    have hh : (1/2 : ℚ) * (((sortAsc l).length : ℚ) - 1) = (m : ℚ) - 1/2 := by
      rw [hm2]
      push_cast
      ring
    have hfl : (⌊(m : ℚ) - 1/2⌋ : ℤ) = (m : ℤ) - 1 := by
      rw [Int.floor_eq_iff]
      constructor
      · push_cast
        linarith
      · push_cast
        linarith
    have htn : ((m : ℤ) - 1).toNat = m - 1 := by omega
    rw [hh, hfl, htn]
    have hcast : (((m - 1 : ℕ)) : ℚ) = (m : ℚ) - 1 := by
      push_cast [hmp]
      ring
    rw [hcast]
    have hmin : min (m - 1 + 1) ((sortAsc l).length - 1) = m := by
      omega
    rw [hmin]
    rw [if_neg (by omega)]
    have hdiv : (sortAsc l).length / 2 = m := by omega
    rw [hdiv]
    ring
  · -- odd length: 2 * m + 1
    have hm2 : (sortAsc l).length = 2 * m + 1 := by omega
    have hh : (1/2 : ℚ) * (((sortAsc l).length : ℚ) - 1) = (m : ℚ) := by
      rw [hm2]
      push_cast
      ring
    rw [hh, Int.floor_natCast, Int.toNat_ofNat]
    rw [if_pos (by omega)]
    have hdiv : (sortAsc l).length / 2 = m := by omega
    rw [hdiv]
    ring

theorem computeGo_numeric_ok {ser : List Cell} {flat : List Scalar} {sep : Option String}
    (hhs : hstack2 ser = .ok flat) (hfin : finiteVals flat ≠ []) :
    computeGo ser sep [.MEAN, .STD, .QUANTILES] =
      .ok [(.MEAN, .fl (.fin (npMean (finiteVals flat)))),
        (.STD, .fl (.sqrtOf (npVarPop (finiteVals flat)))),
        (.QUANTILES, .flList [.fin (npQuantile (finiteVals flat) 0),
          .fin (npQuantile (finiteVals flat) (1/4)),
          .fin (npQuantile (finiteVals flat) (1/2)),
          .fin (npQuantile (finiteVals flat) (3/4)),
          .fin (npQuantile (finiteVals flat) 1)])] := by
  have hne : (finiteVals flat).isEmpty = false := List.isEmpty_eq_false.2 hfin
  simp [computeGo, StatType.compute, hhs, hne, Bind.bind, Except.bind]

theorem computeGo_numeric_nan {ser : List Cell} {flat : List Scalar} {sep : Option String}
    (hhs : hstack2 ser = .ok flat) (hfin : finiteVals flat = []) :
    computeGo ser sep [.MEAN, .STD, .QUANTILES] = .ok sentinelNumStats := by
  have hne : (finiteVals flat).isEmpty = true := by simp [hfin]
  simp [computeGo, StatType.compute, hhs, hne, Bind.bind, Except.bind, sentinelNumStats]

theorem computeGo_numeric_err {ser : List Cell} {e : StatError} {sep : Option String}
    (hhs : hstack2 ser = .error e) :
    computeGo ser sep [.MEAN, .STD, .QUANTILES] = .error e := by
  simp [computeGo, StatType.compute, hhs, Bind.bind, Except.bind]

theorem hstack2_ok {cells : List Cell} (h1 : cells ≠ [])
    (h2 : cells.flatMap Cell.flat ≠ []) :
    hstack2 cells = .ok (cells.flatMap Cell.flat) := by
  rw [hstack2]
  rw [if_neg (by simpa [List.isEmpty_eq_false] using h1)]
  rw [if_neg (by simpa [List.isEmpty_eq_false] using h2)]

theorem hstack2_err {cells : List Cell} (h1 : cells ≠ [])
    (h2 : cells.flatMap Cell.flat = []) :
    hstack2 cells = .error .numpyEmptyConcat := by
  rw [hstack2]
  rw [if_neg (by simpa [List.isEmpty_eq_false] using h1)]
  rw [if_pos (by simpa using h2)]

theorem not_all_filter_ne_nil {cells : List Cell}
    (h : ¬ cells.all Cell.isNull = true) :
    cells.filter (fun c => !c.isNull) ≠ [] := by
  intro hnil
  refine h (List.all_eq_true.2 (fun c hc => ?_))
  by_contra hnn
  have : c ∈ cells.filter (fun c => !c.isNull) :=
    List.mem_filter.2 ⟨hc, by simp [hnn]⟩
  rw [hnil] at this
  simp at this

theorem maskInf_filter_flat (cells : List Cell)
    (hc : ∀ c ∈ cells, ∃ s, c = Cell.sc s) :
    finiteVals (((cells.map maskInf).filter (fun c => !c.isNull)).flatMap Cell.flat) =
      (cells.map maskInf).filterMap finCell := by
  induction cells with
  | nil => rfl
  | cons c t ih =>
    obtain ⟨s, rfl⟩ := hc c (by simp)
    have iht := ih (fun c' hc' => hc c' (by simp [hc']))
    cases s with
    | fin q =>
      simpa [maskInf, Cell.isNull, Cell.flat, finiteVals, finCell] using iht
    | nan =>
      simpa [maskInf, Cell.isNull, finCell] using iht
    | pinf =>
      simpa [maskInf, Cell.isNull, finCell] using iht
    | ninf =>
      simpa [maskInf, Cell.isNull, finCell] using iht

theorem maskInf_allNull_iff (cells : List Cell)
    (hc : ∀ c ∈ cells, ∃ s, c = Cell.sc s) :
    ((cells.map maskInf).all Cell.isNull = true) ↔
      (cells.map maskInf).filterMap finCell = [] := by
  induction cells with
  | nil => simp
  | cons c t ih =>
    obtain ⟨s, rfl⟩ := hc c (by simp)
    have iht := ih (fun c' hc' => hc c' (by simp [hc']))
    cases s with
    | fin q => simp [maskInf, Cell.isNull, finCell]
    | nan => simpa [maskInf, Cell.isNull, finCell] using iht
    | pinf => simpa [maskInf, Cell.isNull, finCell] using iht
    | ninf => simpa [maskInf, Cell.isNull, finCell] using iht

theorem seq_filter_flat (cells : List Cell)
    (hc : ∀ c ∈ cells, (∃ ls, c = Cell.seq ls) ∨ c = Cell.sc Scalar.nan) :
    ∀ x ∈ (cells.filter (fun c => !c.isNull)).flatMap Cell.flat,
      ∃ c ∈ cells, ∃ ls, c = Cell.seq ls ∧ x ∈ ls := by
  intro x hx
  rcases List.mem_flatMap.1 hx with ⟨c, hcf, hxc⟩
  rcases List.mem_filter.1 hcf with ⟨hcm, hnn⟩
  rcases hc c hcm with ⟨ls, rfl⟩ | rfl
  · exact ⟨Cell.seq ls, hcm, ls, rfl, hxc⟩
  · simp [Cell.isNull] at hnn

/-- C3 (amended): for a numerical column, the two infinities are masked to
not-a-number, so the finite values are exactly the non-missing masked
cells; if none remain the result is the sentinel record (no exception),
otherwise the mean / population standard deviation / five-point quantile
summary of the finite values, matching the spec-side readings.  For a
sequence-numerical column the non-missing cells are flattened: an
all-missing column yields the sentinel record; a column with at least one
non-missing cell whose flattening is empty (every present cell an empty
sequence) raises the numpy empty-concatenation error instead of returning
sentinels — the one amendment to the claim; a non-empty flattening with no
finite entry yields the sentinel record; otherwise the statistics of the
finite entries, as in the numerical case. -/
theorem computeColStats_numeric (cells : List Cell) (sep : Option String) :
    ((∀ c ∈ cells, ∃ s, c = Cell.sc s) →
      (((cells.map maskInf).filterMap finCell = []) →
        computeColStats cells .numerical sep = .ok sentinelNumStats) ∧
      (((cells.map maskInf).filterMap finCell ≠ []) →
        computeColStats cells .numerical sep =
          .ok (specNumStats ((cells.map maskInf).filterMap finCell)))) ∧
    ((∀ c ∈ cells, (∃ ls, c = Cell.seq ls) ∨ c = Cell.sc Scalar.nan) →
      ((cells.all Cell.isNull = true) →
        computeColStats cells .sequence_numerical sep = .ok sentinelNumStats) ∧
      ((¬ cells.all Cell.isNull = true) →
        ((cells.filter (fun c => !c.isNull)).flatMap Cell.flat = [] →
          computeColStats cells .sequence_numerical sep =
            .error .numpyEmptyConcat)) ∧
      ((cells.filter (fun c => !c.isNull)).flatMap Cell.flat ≠ [] →
        finiteVals ((cells.filter (fun c => !c.isNull)).flatMap Cell.flat) = [] →
        computeColStats cells .sequence_numerical sep = .ok sentinelNumStats) ∧
      (finiteVals ((cells.filter (fun c => !c.isNull)).flatMap Cell.flat) ≠ [] →
        computeColStats cells .sequence_numerical sep =
          .ok (specNumStats
            (finiteVals ((cells.filter (fun c => !c.isNull)).flatMap Cell.flat))))) := by
  have hserN : computeColStats cells .numerical sep =
      (if (cells.map maskInf).all Cell.isNull then .ok sentinelNumStats
       else computeGo ((cells.map maskInf).filter (fun c => !c.isNull)) sep
         [.MEAN, .STD, .QUANTILES]) := rfl
  have hserS : computeColStats cells .sequence_numerical sep =
      (if cells.all Cell.isNull then .ok sentinelNumStats
       else computeGo (cells.filter (fun c => !c.isNull)) sep
         [.MEAN, .STD, .QUANTILES]) := rfl
  constructor
  · intro hcN
    have hiff := maskInf_allNull_iff cells hcN
    constructor
    · intro hnil
      rw [hserN, if_pos (hiff.2 hnil)]
    · intro hne
      have hnall : ¬ (cells.map maskInf).all Cell.isNull = true :=
        fun h => hne (hiff.1 h)
      rw [hserN, if_neg hnall]
      have hnnne : (cells.map maskInf).filter (fun c => !c.isNull) ≠ [] :=
        not_all_filter_ne_nil hnall
      have hfe := maskInf_filter_flat cells hcN
      have hflatne :
          ((cells.map maskInf).filter (fun c => !c.isNull)).flatMap Cell.flat ≠ [] := by
        intro h0
        apply hne
        rw [← hfe, h0]
        rfl
      rw [computeGo_numeric_ok (hstack2_ok hnnne hflatne) (by rw [hfe]; exact hne)]
      rw [hfe]
      rw [specNumStats, npVarPop_eq_specVariance hne, npQuantile_zero hne,
        npQuantile_half hne, npQuantile_one hne]
      rfl
  · intro _hcS
    refine ⟨?_, ?_, ?_, ?_⟩
    · intro hall
      rw [hserS, if_pos hall]
    · intro hnall hflat
      rw [hserS, if_neg hnall]
      exact computeGo_numeric_err (hstack2_err (not_all_filter_ne_nil hnall) hflat)
    · intro hflatne hfinnil
      have hnn : cells.filter (fun c => !c.isNull) ≠ [] := by
        intro h0
        rw [h0] at hflatne
        exact hflatne rfl
      have hnall : ¬ cells.all Cell.isNull = true := by
        intro hall
        refine hnn (List.filter_eq_nil_iff.2 (fun c hcm => ?_))
        simp [List.all_eq_true.1 hall c hcm]
      rw [hserS, if_neg hnall]
      exact computeGo_numeric_nan (hstack2_ok hnn hflatne) hfinnil
    · intro hfinne
      have hflatne : (cells.filter (fun c => !c.isNull)).flatMap Cell.flat ≠ [] := by
        intro h0
        apply hfinne
        rw [h0]
        rfl
      have hnn : cells.filter (fun c => !c.isNull) ≠ [] := by
        intro h0
        rw [h0] at hflatne
        exact hflatne rfl
      have hnall : ¬ cells.all Cell.isNull = true := by
        intro hall
        refine hnn (List.filter_eq_nil_iff.2 (fun c hcm => ?_))
        simp [List.all_eq_true.1 hall c hcm]
      rw [hserS, if_neg hnall]
      rw [computeGo_numeric_ok (hstack2_ok hnn hflatne) hfinne]
      rw [specNumStats, npVarPop_eq_specVariance hfinne, npQuantile_zero hfinne,
        npQuantile_half hfinne, npQuantile_one hfinne]
      rfl

/-- C3 counterexample: a sequence-numerical column whose two cells are both
present (non-missing) but empty sequences has zero finite entries after
flattening, yet the computation raises (numpy refuses to concatenate zero
arrays) instead of returning the sentinel record the claim promises. -/
theorem computeColStats_seq_empty_raises :
    computeColStats [Cell.seq [], Cell.seq []] .sequence_numerical none =
      .error .numpyEmptyConcat := by decide

theorem computeColStats_numeric_witness :
    computeColStats [Cell.sc (.fin 1), Cell.sc (.fin 2), Cell.sc (.fin 3),
        Cell.sc (.fin 4), Cell.sc .pinf] .numerical none =
      .ok (specNumStats [1, 2, 3, 4]) ∧
    computeColStats [Cell.seq [.fin 1, .nan], Cell.seq [.fin 3], Cell.sc .nan]
        .sequence_numerical none =
      .ok (specNumStats [1, 3]) := by
  constructor
  · have h := ((computeColStats_numeric [Cell.sc (.fin 1), Cell.sc (.fin 2),
        Cell.sc (.fin 3), Cell.sc (.fin 4), Cell.sc .pinf] none).1
      (by intro c hc; simp at hc; rcases hc with rfl | rfl | rfl | rfl | rfl <;>
        exact ⟨_, rfl⟩)).2 (by decide)
    rw [h]
    rfl
  · have h := ((computeColStats_numeric [Cell.seq [.fin 1, .nan],
        Cell.seq [.fin 3], Cell.sc .nan] none).2
      (by intro c hc; simp at hc
          rcases hc with rfl | rfl | rfl
          · exact Or.inl ⟨_, rfl⟩
          · exact Or.inl ⟨_, rfl⟩
          · exact Or.inr rfl)).2.2.2 (by decide)
    rw [h]
    rfl

end TorchFrame
